import Mathlib

/-!
# Verification of the helix-refinement postprocessing step

A shallow embedding, in Lean 4, of `src/postprocessing/helix_refinement.py`
(Ca-Backbone-Prediction).  Points are modelled as triples of real numbers
(the Python code computes with numpy floats; we verify the exact real-number
semantics of the same formulas).  Helix / sheet ranges are pairs of integers,
as in the Python source.  Fallible Python code (exceptions such as
`ZeroDivisionError`) is modelled with `Option`.

Definitions follow the source functions line by line and keep their names
(up to Lean naming restrictions).  The numeric optimizer (`scipy.minimize`)
is external library code; where a claim concerns the steps after the
parameter search, the generated node list produced by the search is passed
in as an argument, exactly as it appears (`self.nodes`) at that point of
`Helix.fit`.
-/

/-- A 3D point / vector, mirroring the numpy arrays of length 3. -/
abbrev P3 : Type := ℝ × ℝ × ℝ

/-- Componentwise addition (`np.add` / `+` on numpy arrays). -/
def add3 (u v : P3) : P3 := (u.1 + v.1, u.2.1 + v.2.1, u.2.2 + v.2.2)

/-- Componentwise subtraction (`-` on numpy arrays). -/
def sub3 (u v : P3) : P3 := (u.1 - v.1, u.2.1 - v.2.1, u.2.2 - v.2.2)

/-- Scalar multiple (`c * v` on numpy arrays). -/
def smul3 (c : ℝ) (v : P3) : P3 := (c * v.1, c * v.2.1, c * v.2.2)

/-- Dot product (`np.dot`). -/
def dot3 (u v : P3) : ℝ := u.1 * v.1 + u.2.1 * v.2.1 + u.2.2 * v.2.2

/-- Euclidean norm (`np.linalg.norm`). -/
noncomputable def norm3 (v : P3) : ℝ := Real.sqrt (dot3 v v)

/-- `get_vector(node1, node2)`: the vector connecting `node1` with `node2`. -/
def get_vector (n1 n2 : P3) : P3 :=
  (n2.1 - n1.1, n2.2.1 - n1.2.1, n2.2.2 - n1.2.2)

/-- `get_distance(point1, point2) = np.linalg.norm(point1 - point2)`. -/
noncomputable def get_distance (p1 p2 : P3) : ℝ := norm3 (sub3 p1 p2)

theorem dot3_self_nonneg (v : P3) : 0 ≤ dot3 v v := by
  unfold dot3; nlinarith [sq_nonneg v.1, sq_nonneg v.2.1, sq_nonneg v.2.2]

theorem norm3_nonneg (v : P3) : 0 ≤ norm3 v := Real.sqrt_nonneg _

theorem norm3_eq_zero_iff (v : P3) : norm3 v = 0 ↔ v = (0, 0, 0) := by
  unfold norm3
  rw [Real.sqrt_eq_zero (dot3_self_nonneg v)]
  constructor
  · intro h
    unfold dot3 at h
    have h1 : v.1 = 0 := by nlinarith [sq_nonneg v.1, sq_nonneg v.2.1, sq_nonneg v.2.2]
    have h2 : v.2.1 = 0 := by nlinarith [sq_nonneg v.1, sq_nonneg v.2.1, sq_nonneg v.2.2]
    have h3 : v.2.2 = 0 := by nlinarith [sq_nonneg v.1, sq_nonneg v.2.1, sq_nonneg v.2.2]
    rw [show v = (v.1, v.2.1, v.2.2) from rfl, h1, h2, h3]
  · intro h; rw [h]; unfold dot3; ring

/-!
## The `Curve` class (`Curve.__call__` and `Curve.get_vector`)

A `Curve` holds a list of control nodes.  `Curve.__call__(t)` walks the
segments between consecutive control nodes, consuming arc length, and
returns the interpolated point in the first segment whose length exceeds the
remaining `t`; if the control points are exhausted it returns `None`.
`Curve.get_vector(t)` is the identical traversal returning the (non-unit)
segment direction vector instead.
-/

/-- `Curve.__call__(t)` with control-node list `nodes`. -/
noncomputable def curveCall : List P3 → ℝ → Option P3
  | a :: b :: rest, t =>
    let v := get_vector a b
    let d := norm3 v
    if d > t then some (add3 a (smul3 (t / d) v))
    else curveCall (b :: rest) (t - d)
  | _, _ => none

/-- `Curve.get_vector(t)` with control-node list `nodes`. -/
noncomputable def curveGetVector : List P3 → ℝ → Option P3
  | a :: b :: rest, t =>
    let v := get_vector a b
    let d := norm3 v
    if d > t then some v
    else curveGetVector (b :: rest) (t - d)
  | _, _ => none

/-- Total arc length of the piecewise-linear curve: the sum of the segment
lengths the traversal of `Curve.__call__` can consume. -/
noncomputable def totalLen : List P3 → ℝ
  | a :: b :: rest => norm3 (get_vector a b) + totalLen (b :: rest)
  | _ => 0

theorem totalLen_nonneg (l : List P3) : 0 ≤ totalLen l := by
  induction l with
  | nil => simp [totalLen]
  | cons a tl ih =>
    cases tl with
    | nil => simp [totalLen]
    | cons b rest =>
      rw [totalLen]
      have := norm3_nonneg (get_vector a b)
      linarith

/-- Past the total arc length the traversal falls off the end and yields
`none`. -/
theorem curveCall_none_of_ge (l : List P3) :
    ∀ t : ℝ, totalLen l ≤ t → curveCall l t = none := by
  induction l with
  | nil => intro t _; rfl
  | cons a tl ih =>
    intro t ht
    cases tl with
    | nil => rfl
    | cons b rest =>
      rw [curveCall]
      have hrest := totalLen_nonneg (b :: rest)
      rw [totalLen] at ht
      have hd : ¬ (norm3 (get_vector a b) > t) := by linarith
      rw [if_neg hd]
      exact ih (t - norm3 (get_vector a b)) (by linarith)

/-- At parameter `0` the traversal returns the first control point, provided
the curve has positive total length. -/
theorem curveCall_zero (a : P3) (tl : List P3) :
    0 < totalLen (a :: tl) → curveCall (a :: tl) 0 = some a := by
  induction tl generalizing a with
  | nil => intro h; simp [totalLen] at h
  | cons b rest ih =>
    intro h
    rw [curveCall]
    by_cases hd : norm3 (get_vector a b) > 0
    · rw [if_pos hd]
      have hne : norm3 (get_vector a b) ≠ 0 := ne_of_gt hd
      simp only [add3, smul3]
      congr 1
      have h0 : (0:ℝ) / norm3 (get_vector a b) = 0 := by
        rw [zero_div]
      rw [h0]
      show (a.1 + 0 * _, a.2.1 + 0 * _, a.2.2 + 0 * _) = a
      simp
    · rw [if_neg hd]
      have hz : norm3 (get_vector a b) = 0 :=
        le_antisymm (not_lt.mp hd) (norm3_nonneg _)
      have hba : b = a := by
        have := (norm3_eq_zero_iff (get_vector a b)).mp hz
        unfold get_vector at this
        have h1 : b.1 - a.1 = 0 := congrArg Prod.fst this
        have h2 : b.2.1 - a.2.1 = 0 := congrArg (fun p => p.2.1) this
        have h3 : b.2.2 - a.2.2 = 0 := congrArg (fun p => p.2.2) this
        show b = a
        rw [show b = (b.1, b.2.1, b.2.2) from rfl, show a = (a.1, a.2.1, a.2.2) from rfl]
        have e1 : b.1 = a.1 := by linarith
        have e2 : b.2.1 = a.2.1 := by linarith
        have e3 : b.2.2 = a.2.2 := by linarith
        rw [e1, e2, e3]
      rw [hz, sub_zero]
      rw [totalLen, hz, zero_add] at h
      rw [ih b h, hba]

/-- Segment length of the unit segment used in concrete examples. -/
theorem norm3_unitx : norm3 (((1:ℝ), (0:ℝ), (0:ℝ))) = 1 := by
  unfold norm3 dot3
  norm_num

/-- The first example segment vector. -/
theorem get_vector_ex1 :
    get_vector (((0:ℝ), (0:ℝ), (0:ℝ))) (((1:ℝ), (0:ℝ), (0:ℝ))) = ((1:ℝ), (0:ℝ), (0:ℝ)) := by
  unfold get_vector
  norm_num

/-- Total length of the one-segment example curve. -/
theorem totalLen_ex1 :
    totalLen [((0:ℝ), (0:ℝ), (0:ℝ)), ((1:ℝ), (0:ℝ), (0:ℝ))] = 1 := by
  rw [totalLen, get_vector_ex1, norm3_unitx]
  rw [show totalLen [((1:ℝ), (0:ℝ), (0:ℝ))] = 0 from rfl]
  ring

/-- Claim C2, counterexample.  The claim asserts `position(total_length)`
equals the last control point; on the one-segment curve from `(0,0,0)` to
`(1,0,0)` (total arc length `1`, which is positive, with two control
points) the traversal instead returns `none` at `t = total_length`, because
the acceptance test `distance_to_next > t` is strict. -/
theorem c2_position_at_total_length_counterexample :
    ¬ (curveCall [((0:ℝ), (0:ℝ), (0:ℝ)), ((1:ℝ), (0:ℝ), (0:ℝ))]
        (totalLen [((0:ℝ), (0:ℝ), (0:ℝ)), ((1:ℝ), (0:ℝ), (0:ℝ))])
       = some ((1:ℝ), (0:ℝ), (0:ℝ))) := by
  rw [totalLen_ex1, curveCall]
  rw [get_vector_ex1, norm3_unitx]
  rw [if_neg (by norm_num)]
  rw [show curveCall [((1:ℝ), (0:ℝ), (0:ℝ))] (1 - 1) = none from rfl]
  simp

/-- Claim C2, amended.  For every curve with at least two control points and
positive total arc length `L`: `position(0)` equals the first control point,
and for every `t ≥ L` — including `t = L` itself, contrary to the original
claim — `position(t)` returns the terminal no-value result `none`.
(The last control point is only approached in the limit `t → L⁻`; the strict
comparison `distance_to_next > t` already fails at `t = L`.) -/
theorem c2_position_boundary_amended (a b : P3) (rest : List P3)
    (hL : 0 < totalLen (a :: b :: rest)) :
    curveCall (a :: b :: rest) 0 = some a ∧
      ∀ t : ℝ, totalLen (a :: b :: rest) ≤ t → curveCall (a :: b :: rest) t = none :=
  ⟨curveCall_zero a (b :: rest) hL,
   fun t ht => curveCall_none_of_ge (a :: b :: rest) t ht⟩

/-- Witness for the amended claim C2 on the concrete one-segment curve. -/
theorem c2_position_boundary_amended_witness :
    0 < totalLen [((0:ℝ), (0:ℝ), (0:ℝ)), ((1:ℝ), (0:ℝ), (0:ℝ))] ∧
      curveCall [((0:ℝ), (0:ℝ), (0:ℝ)), ((1:ℝ), (0:ℝ), (0:ℝ))] 0
        = some ((0:ℝ), (0:ℝ), (0:ℝ)) := by
  have h : 0 < totalLen [((0:ℝ), (0:ℝ), (0:ℝ)), ((1:ℝ), (0:ℝ), (0:ℝ))] := by
    rw [totalLen_ex1]; norm_num
  exact ⟨h, (c2_position_boundary_amended ((0:ℝ), (0:ℝ), (0:ℝ)) ((1:ℝ), (0:ℝ), (0:ℝ)) [] h).1⟩

/-- Claim C9.  For every curve with at least two control points whose first
segment has positive length, and every `t < 0`: `position(t)` and
`get_vector(t)` return defined values (never `none`); `position(t)` is the
linear extrapolation of the first segment behind its start point (the first
point plus `(t / segment length)` times the segment vector); and the point
so produced lies strictly behind the start of the screw axis (its offset
from the first control point has negative inner product with the first
segment direction) — which is what makes `Helix._set_nodes` started at a
negative shift emit points before the start of the screw axis. -/
theorem c9_negative_parameter_extrapolates (a b : P3) (rest : List P3) (t : ℝ)
    (hd : 0 < norm3 (get_vector a b)) (ht : t < 0) :
    curveCall (a :: b :: rest) t
        = some (add3 a (smul3 (t / norm3 (get_vector a b)) (get_vector a b))) ∧
      curveGetVector (a :: b :: rest) t = some (get_vector a b) ∧
      dot3 (sub3 (add3 a (smul3 (t / norm3 (get_vector a b)) (get_vector a b))) a)
          (get_vector a b) < 0 := by
  have hgt : norm3 (get_vector a b) > t := lt_trans ht hd
  refine ⟨?_, ?_, ?_⟩
  · rw [curveCall, if_pos hgt]
  · rw [curveGetVector, if_pos hgt]
  · have hsub : sub3 (add3 a (smul3 (t / norm3 (get_vector a b)) (get_vector a b))) a
        = smul3 (t / norm3 (get_vector a b)) (get_vector a b) := by
      unfold sub3 add3 smul3
      show (_, _, _) = (_, _, _)
      refine Prod.ext ?_ (Prod.ext ?_ ?_) <;> ring
    rw [hsub]
    have hdot : dot3 (smul3 (t / norm3 (get_vector a b)) (get_vector a b)) (get_vector a b)
        = (t / norm3 (get_vector a b)) * dot3 (get_vector a b) (get_vector a b) := by
      unfold dot3 smul3; ring
    rw [hdot]
    have hvpos : 0 < dot3 (get_vector a b) (get_vector a b) := by
      rcases lt_or_eq_of_le (dot3_self_nonneg (get_vector a b)) with h | h
      · exact h
      · exfalso
        have : norm3 (get_vector a b) = 0 := by
          unfold norm3; rw [← h, Real.sqrt_zero]
        linarith
    exact mul_neg_of_neg_of_pos (div_neg_of_neg_of_pos ht hd) hvpos

/-- Witness for claim C9 at the concrete segment `(0,0,0) → (1,0,0)` and
parameter `t = -1`. -/
theorem c9_negative_parameter_extrapolates_witness :
    0 < norm3 (get_vector (((0:ℝ), (0:ℝ), (0:ℝ))) (((1:ℝ), (0:ℝ), (0:ℝ)))) ∧
      ((-1:ℝ) < 0) ∧
      curveCall [((0:ℝ), (0:ℝ), (0:ℝ)), ((1:ℝ), (0:ℝ), (0:ℝ))] (-1)
        = some (add3 ((0:ℝ), (0:ℝ), (0:ℝ))
            (smul3 ((-1) / norm3 (get_vector (((0:ℝ), (0:ℝ), (0:ℝ))) (((1:ℝ), (0:ℝ), (0:ℝ)))))
              (get_vector (((0:ℝ), (0:ℝ), (0:ℝ))) (((1:ℝ), (0:ℝ), (0:ℝ)))))) := by
  have hd : 0 < norm3 (get_vector (((0:ℝ), (0:ℝ), (0:ℝ))) (((1:ℝ), (0:ℝ), (0:ℝ)))) := by
    rw [get_vector_ex1, norm3_unitx]; norm_num
  exact ⟨hd, by norm_num,
    (c9_negative_parameter_extrapolates ((0:ℝ), (0:ℝ), (0:ℝ)) ((1:ℝ), (0:ℝ), (0:ℝ)) [] (-1)
      hd (by norm_num)).1⟩

/-!
## `get_avg_offset` and the acceptance step of `Helix.fit`

`get_avg_offset(nodes1, nodes2)` accumulates, for each node of `nodes1`,
the distance to the closest node of `nodes2` — tracked by a running
`closest_distance` initialised to `-1` (standing for "not yet set") — and
divides the total by `len(nodes1)`.  A division by zero (empty `nodes1`)
raises in Python and is modelled as `none`.

After the parameter search, `Helix.fit` recomputes
`get_avg_offset(nodes, self.nodes)` and either splices the original edge
points around the generated nodes (`_set_edges`) or discards the generated
geometry.  `fit_final nodes generated` models exactly these final lines of
`Helix.fit`, with `generated` the node list produced by the search.
-/

/-- Inner loop of `get_avg_offset`: the running `closest_distance`,
initialised to `-1`, updated whenever `distance < closest_distance or
closest_distance == -1`. -/
noncomputable def closestDistLoop (node1 : P3) : List P3 → ℝ → ℝ
  | [], acc => acc
  | n2 :: ns, acc =>
    closestDistLoop node1 ns
      (if get_distance node1 n2 < acc ∨ acc = -1 then get_distance node1 n2 else acc)

/-- `get_avg_offset(nodes1, nodes2)`.  `none` models the
`ZeroDivisionError` raised on an empty `nodes1`. -/
noncomputable def get_avg_offset (nodes1 nodes2 : List P3) : Option ℝ :=
  if nodes1 = [] then none
  else some ((nodes1.map fun n1 => closestDistLoop n1 nodes2 (-1)).sum / nodes1.length)

/-- `int(min_interval_size / 2 - 0.1)` from `Helix._set_edges`.  (Python's
`int()` truncates toward zero; the value is nonnegative for every
`min_interval_size ≥ 1`, so truncation and floor agree, and for
`min_interval_size = 0` both give `0`.) -/
def edgeLength (m : ℕ) : ℕ := (⌊(m : ℚ) / 2 - 1 / 10⌋).toNat

/-- Python slice `l[:k]` for `k ≥ 0`. -/
def pyTake {α : Type} (l : List α) (k : ℕ) : List α := l.take k

/-- Python slice `l[-k:]` for `k ≥ 0`: the last `k` elements — except that
`l[-0:]` is the whole list. -/
def pyLastSlice {α : Type} (l : List α) (k : ℕ) : List α :=
  if k = 0 then l else l.drop (l.length - k)

/-- `Helix._set_edges`: splice the first and last `edgeLength m` original
points around the generated nodes. -/
def set_edges (m : ℕ) (original_nodes generated : List P3) : List P3 :=
  pyTake original_nodes (edgeLength m) ++ generated ++ pyLastSlice original_nodes (edgeLength m)

/-- The last lines of `Helix.fit` (after the parameter search has produced
the generated node list): recompute the average offset and branch on the
acceptance band `0.8 < d ≤ 1.7`.  `min_interval_size = 3` as instantiated
by `fit_helices`. -/
noncomputable def fit_final (nodes generated : List P3) : Option (List P3) :=
  (get_avg_offset nodes generated).map fun d =>
    if 0.8 < d ∧ d ≤ 1.7 then set_edges 3 nodes generated else nodes

theorem edgeLength_three : edgeLength 3 = 1 := by
  unfold edgeLength
  rw [show ((3 : ℕ) : ℚ) / 2 - 1 / 10 = 7 / 5 by norm_num]
  rw [show ⌊(7 / 5 : ℚ)⌋ = 1 by
    rw [Int.floor_eq_iff]
    constructor <;> norm_num]
  rfl

theorem closestDistLoop_nil (n1 : P3) (acc : ℝ) : closestDistLoop n1 [] acc = acc := rfl

theorem map_closest_empty_sum (l : List P3) :
    (l.map fun n1 => closestDistLoop n1 [] (-1)).sum = -(l.length : ℝ) := by
  induction l with
  | nil => simp
  | cons a tl ih =>
    rw [List.map_cons, List.sum_cons, ih, closestDistLoop_nil, List.length_cons]
    push_cast
    ring

theorem get_avg_offset_empty_left (ns2 : List P3) : get_avg_offset [] ns2 = none := by
  unfold get_avg_offset
  rw [if_pos rfl]

theorem get_avg_offset_empty_right (ns1 : List P3) (h : ns1 ≠ []) :
    get_avg_offset ns1 [] = some (-1) := by
  unfold get_avg_offset
  rw [if_neg h, map_closest_empty_sum]
  have hlen : (ns1.length : ℝ) ≠ 0 := by
    simp only [ne_eq, Nat.cast_eq_zero, List.length_eq_zero]
    exact h
  rw [neg_div, div_self hlen]

theorem fit_final_empty_generated (orig : List P3) (h : orig ≠ []) :
    fit_final orig [] = some orig := by
  unfold fit_final
  rw [get_avg_offset_empty_right orig h]
  rw [Option.map_some']
  rw [if_neg (by norm_num)]

/-- Claim C1.  After `Helix.fit` recomputes the average nearest-neighbour
distance `d = get_avg_offset(original, generated)`: if `0.8 < d ≤ 1.7` the
resulting `Helix.nodes` is the first `int(min_interval_size/2 - 0.1) = 1`
original point, then the generated points, then the last `1` original
point; otherwise `Helix.nodes` is the original input list unchanged
(`min_interval_size = 3`, the value `fit_helices` instantiates). -/
theorem c1_acceptance_band_splice (nodes generated : List P3) (d : ℝ)
    (h : get_avg_offset nodes generated = some d) :
    fit_final nodes generated =
      some (if 0.8 < d ∧ d ≤ 1.7
            then nodes.take 1 ++ generated ++ nodes.drop (nodes.length - 1)
            else nodes) := by
  unfold fit_final
  rw [h, Option.map_some']
  congr 1
  by_cases hb : 0.8 < d ∧ d ≤ 1.7
  · rw [if_pos hb, if_pos hb]
    unfold set_edges pyTake pyLastSlice
    rw [edgeLength_three]
    rw [if_neg (by norm_num)]
  · rw [if_neg hb, if_neg hb]

/-- Witness for claim C1: on original list `[(0,0,0)]` with an empty
generated list the recomputed offset is `-1`, outside the band, so the
original nodes are kept. -/
theorem c1_acceptance_band_splice_witness :
    get_avg_offset [((0:ℝ), (0:ℝ), (0:ℝ))] [] = some (-1) ∧
      fit_final [((0:ℝ), (0:ℝ), (0:ℝ))] [] = some [((0:ℝ), (0:ℝ), (0:ℝ))] := by
  have h : get_avg_offset [((0:ℝ), (0:ℝ), (0:ℝ))] [] = some (-1) :=
    get_avg_offset_empty_right _ (by simp)
  refine ⟨h, ?_⟩
  rw [c1_acceptance_band_splice [((0:ℝ), (0:ℝ), (0:ℝ))] [] (-1) h]
  rw [if_neg (by norm_num)]

/-- Claim C10.  `get_avg_offset` yields no value (Python: a
`ZeroDivisionError`) exactly on an empty `nodes1`; for nonempty `nodes1`
and empty `nodes2` it returns `-1` rather than failing; consequently a fit
attempt whose generated node list is empty produces a negative average
offset, outside the acceptance band, and `Helix.fit` keeps the original
input nodes. -/
theorem c10_avg_offset_degenerate_guards :
    (∀ ns2 : List P3, get_avg_offset [] ns2 = none) ∧
      (∀ ns1 : List P3, ns1 ≠ [] → get_avg_offset ns1 [] = some (-1)) ∧
      (∀ orig : List P3, orig ≠ [] → fit_final orig [] = some orig) :=
  ⟨get_avg_offset_empty_left,
   get_avg_offset_empty_right,
   fit_final_empty_generated⟩

/-- Witness for claim C10 at the one-point original list `[(0,0,0)]`. -/
theorem c10_avg_offset_degenerate_guards_witness :
    (([((0:ℝ), (0:ℝ), (0:ℝ))] : List P3) ≠ []) ∧
      get_avg_offset [((0:ℝ), (0:ℝ), (0:ℝ))] [] = some (-1) ∧
      fit_final [((0:ℝ), (0:ℝ), (0:ℝ))] [] = some [((0:ℝ), (0:ℝ), (0:ℝ))] := by
  have h : ([((0:ℝ), (0:ℝ), (0:ℝ))] : List P3) ≠ [] := by simp
  exact ⟨h, c10_avg_offset_degenerate_guards.2.1 _ h,
    c10_avg_offset_degenerate_guards.2.2 _ h⟩

/-!
## `update_sec_structure` (index rebasing)

Each secondary-structure range is a pair of integer node indices (the
Python code mutates two-element lists in place; the pure model maps over
the list).  A boundary is shifted by `diff` exactly when it strictly
exceeds `node_start`.
-/

/-- `update_sec_structure(sec_structure, node_start, diff)`. -/
def update_sec_structure (sec_structure : List (ℤ × ℤ)) (node_start diff : ℤ) :
    List (ℤ × ℤ) :=
  sec_structure.map fun node_range =>
    (if node_range.1 > node_start then node_range.1 + diff else node_range.1,
     if node_range.2 > node_start then node_range.2 + diff else node_range.2)

/-- Claim C4.  `update_sec_structure` keeps the number of ranges, adds
`diff` to exactly those start/end boundaries strictly exceeding
`node_start` while leaving boundaries `≤ node_start` unchanged, and in
particular is the identity when `diff = 0`. -/
theorem c4_rebase_exactly_boundaries_above (l : List (ℤ × ℤ)) (node_start diff : ℤ) :
    (update_sec_structure l node_start diff).length = l.length ∧
      (∀ (k : ℕ) (a b : ℤ), l[k]? = some (a, b) →
        (update_sec_structure l node_start diff)[k]? =
          some (if node_start < a then a + diff else a,
                if node_start < b then b + diff else b)) ∧
      update_sec_structure l node_start 0 = l := by
  refine ⟨List.length_map _ _, ?_, ?_⟩
  · intro k a b hk
    unfold update_sec_structure
    rw [List.getElem?_map, hk, Option.map_some']
  · unfold update_sec_structure
    induction l with
    | nil => rfl
    | cons r tl ih =>
      rw [List.map_cons, ih]
      congr 1
      rcases r with ⟨a, b⟩
      by_cases ha : a > node_start <;> by_cases hb : b > node_start <;>
        simp [ha, hb]

/-- Witness for claim C4 at the concrete range list `[(0, 5)]`,
`node_start = 2`, `diff = 7`: the start `0 ≤ 2` is unchanged and the end
`5 > 2` is shifted. -/
theorem c4_rebase_exactly_boundaries_above_witness :
    (([((0:ℤ), (5:ℤ))] : List (ℤ × ℤ))[0]? = some (0, 5)) ∧
      (update_sec_structure [((0:ℤ), (5:ℤ))] 2 7)[0]? =
        some (if (2:ℤ) < 0 then 0 + 7 else 0, if (2:ℤ) < 5 then 5 + 7 else 5) := by
  have h : (([((0:ℤ), (5:ℤ))] : List (ℤ × ℤ))[0]? = some (0, 5)) := rfl
  exact ⟨h, (c4_rebase_exactly_boundaries_above [((0:ℤ), (5:ℤ))] 2 7).2.1 0 0 5 h⟩


/-!
## `split_helix_at_node`

A `Chain` owns its node list and the integer helix/sheet range lists.
`split_helix_at_node(node, chain, i)` scans the half-open index range of
helix `i` for the node closest to `node` (running minimum initialised with
`closest_node = -1, min_distance = inf`; the "not yet set" state is
modelled as `none`), bumps the found index by one if it equals the range
start, and replaces the range entry by the two sub-ranges, in order, at
the same list position.
-/

/-- A chain: nodes plus helix and sheet ranges. -/
structure Chain where
  nodes : List P3
  helices : List (ℤ × ℤ)
  sheets : List (ℤ × ℤ)

/-- The integer list `range(s, e)` of Python. -/
def intRange (s e : ℤ) : List ℤ := (List.range (e - s).toNat).map fun (k : ℕ) => s + (k : ℤ)

/-- `nodes[j]` for an integer index; the claims only use indices
`0 ≤ j < len(nodes)`, where Python indexing agrees with `getD` on `j.toNat`. -/
def nodeAtZ (nodes : List P3) (j : ℤ) : P3 :=
  nodes.getD j.toNat ((0:ℝ), (0:ℝ), (0:ℝ))

/-- The scan of `split_helix_at_node` over the candidate indices, carrying
`(closest_node, min_distance)`; `min_distance = none` models the initial
`float('inf')` state paired with `closest_node = -1` (the first candidate
always wins the strict comparison against infinity). -/
noncomputable def closestScan (nodes : List P3) (node : P3) :
    List ℤ → ℤ × Option ℝ → ℤ × Option ℝ
  | [], acc => acc
  | j :: js, (bi, bd) =>
    closestScan nodes node js
      (match bd with
       | none => (j, some (get_distance (nodeAtZ nodes j) node))
       | some m =>
         if get_distance (nodeAtZ nodes j) node < m
         then (j, some (get_distance (nodeAtZ nodes j) node))
         else (bi, some m))

/-- `split_helix_at_node(node, chain, i)`. -/
noncomputable def split_helix_at_node (node : P3) (chain : Chain) (i : ℕ) : Chain :=
  let se := chain.helices.getD i (0, 0)
  let closest_node := (closestScan chain.nodes node (intRange se.1 se.2) (-1, none)).1
  let closest_bumped := if se.1 = closest_node then closest_node + 1 else closest_node
  { chain with
      helices := chain.helices.take i
        ++ [(se.1, closest_bumped), (closest_bumped, se.2)]
        ++ chain.helices.drop (i + 1) }

theorem mem_intRange (s e j : ℤ) : j ∈ intRange s e ↔ s ≤ j ∧ j < e := by
  unfold intRange
  constructor
  · intro h
    obtain ⟨k, hk, rfl⟩ := List.mem_map.mp h
    have hk' := List.mem_range.mp hk
    omega
  · rintro ⟨h1, h2⟩
    apply List.mem_map.mpr
    refine ⟨(j - s).toNat, ?_, ?_⟩
    · apply List.mem_range.mpr
      omega
    · omega

theorem closestScan_invariant (nodes : List P3) (node : P3) :
    ∀ (js : List ℤ) (bi : ℤ) (m : ℝ),
      m = get_distance (nodeAtZ nodes bi) node →
      (closestScan nodes node js (bi, some m)).2
          = some (get_distance
              (nodeAtZ nodes (closestScan nodes node js (bi, some m)).1) node) ∧
        ((closestScan nodes node js (bi, some m)).1 = bi ∨
          (closestScan nodes node js (bi, some m)).1 ∈ js) ∧
        get_distance (nodeAtZ nodes (closestScan nodes node js (bi, some m)).1) node ≤ m ∧
        (∀ j ∈ js,
          get_distance (nodeAtZ nodes (closestScan nodes node js (bi, some m)).1) node
            ≤ get_distance (nodeAtZ nodes j) node) := by
  intro js
  induction js with
  | nil =>
    intro bi m hm
    exact ⟨by simp only [closestScan]; rw [hm], Or.inl rfl, le_of_eq hm.symm,
      fun j hj => absurd hj (List.not_mem_nil j)⟩
  | cons j js ih =>
    intro bi m hm
    by_cases hlt : get_distance (nodeAtZ nodes j) node < m
    · have hstep : closestScan nodes node (j :: js) (bi, some m)
          = closestScan nodes node js (j, some (get_distance (nodeAtZ nodes j) node)) := by
        simp only [closestScan, hlt, if_pos]
      rw [hstep]
      obtain ⟨h1, h2, h3, h4⟩ := ih j (get_distance (nodeAtZ nodes j) node) rfl
      refine ⟨h1, ?_, le_of_lt (lt_of_le_of_lt h3 hlt), ?_⟩
      · rcases h2 with h | h
        · exact Or.inr (by rw [h]; exact List.mem_cons_self j js)
        · exact Or.inr (List.mem_cons_of_mem j h)
      · intro j' hj'
        rcases List.mem_cons.mp hj' with rfl | hj'
        · exact h3
        · exact h4 j' hj'
    · have hstep : closestScan nodes node (j :: js) (bi, some m)
          = closestScan nodes node js (bi, some m) := by
        simp only [closestScan, hlt, if_neg, ite_false]
      rw [hstep]
      obtain ⟨h1, h2, h3, h4⟩ := ih bi m hm
      refine ⟨h1, ?_, h3, ?_⟩
      · rcases h2 with h | h
        · exact Or.inl h
        · exact Or.inr (List.mem_cons_of_mem j h)
      · intro j' hj'
        rcases List.mem_cons.mp hj' with rfl | hj'
        · exact le_trans h3 (not_lt.mp hlt)
        · exact h4 j' hj'

theorem closestScan_argmin (nodes : List P3) (node : P3) (js : List ℤ) (hne : js ≠ []) :
    (closestScan nodes node js (-1, none)).1 ∈ js ∧
      (∀ j ∈ js,
        get_distance (nodeAtZ nodes (closestScan nodes node js (-1, none)).1) node
          ≤ get_distance (nodeAtZ nodes j) node) := by
  cases js with
  | nil => exact absurd rfl hne
  | cons j0 js =>
    have hstep : closestScan nodes node (j0 :: js) (-1, none)
        = closestScan nodes node js (j0, some (get_distance (nodeAtZ nodes j0) node)) := by
      simp only [closestScan]
    rw [hstep]
    obtain ⟨_, h2, h3, h4⟩ :=
      closestScan_invariant nodes node js j0 (get_distance (nodeAtZ nodes j0) node) rfl
    constructor
    · rcases h2 with h | h
      · rw [h]; exact List.mem_cons_self j0 js
      · exact List.mem_cons_of_mem j0 h
    · intro j hj
      rcases List.mem_cons.mp hj with rfl | hj
      · exact h3
      · exact h4 j hj

/-- Claim C3.  For a valid helix range `[s, e)` with `e - s ≥ 2`,
`split_helix_at_node` replaces that range, at the same list position, with
exactly the two ranges `[s, cl)` and `[cl, e)` in that order, where `cl` is
the index in `[s, e)` of a node of minimal Euclidean distance to the
violation's axis point, incremented by one when it equals `s`; both
sub-ranges are nonempty and they partition the original index range with no
gap or overlap; the chain's nodes and sheets are untouched. -/
theorem c3_split_replaces_range_with_partition (node : P3) (chain : Chain) (i : ℕ)
    (s e : ℤ) (hi : chain.helices[i]? = some (s, e))
    (_hs : 0 ≤ s) (h2 : s + 2 ≤ e) (_hlen : e ≤ (chain.nodes.length : ℤ)) :
    ∃ raw cl : ℤ,
      (s ≤ raw ∧ raw < e) ∧
      (∀ j : ℤ, s ≤ j → j < e →
        get_distance (nodeAtZ chain.nodes raw) node
          ≤ get_distance (nodeAtZ chain.nodes j) node) ∧
      cl = (if s = raw then raw + 1 else raw) ∧
      (split_helix_at_node node chain i).helices
        = chain.helices.take i ++ [(s, cl), (cl, e)] ++ chain.helices.drop (i + 1) ∧
      (split_helix_at_node node chain i).nodes = chain.nodes ∧
      (split_helix_at_node node chain i).sheets = chain.sheets ∧
      s < cl ∧ cl < e ∧
      (∀ j : ℤ, (s ≤ j ∧ j < e) ↔ ((s ≤ j ∧ j < cl) ∨ (cl ≤ j ∧ j < e))) ∧
      (∀ j : ℤ, ¬ ((s ≤ j ∧ j < cl) ∧ (cl ≤ j ∧ j < e))) := by
  have hgetD : chain.helices.getD i (0, 0) = (s, e) := by
    unfold List.getD
    rw [List.get?_eq_getElem?, hi]
    rfl
  have hne : intRange s e ≠ [] :=
    List.ne_nil_of_mem ((mem_intRange s e s).mpr ⟨le_refl s, by omega⟩)
  obtain ⟨hmem, hmin⟩ := closestScan_argmin chain.nodes node (intRange s e) hne
  have hbounds := (mem_intRange s e _).mp hmem
  refine ⟨(closestScan chain.nodes node (intRange s e) (-1, none)).1,
    (if s = (closestScan chain.nodes node (intRange s e) (-1, none)).1
     then (closestScan chain.nodes node (intRange s e) (-1, none)).1 + 1
     else (closestScan chain.nodes node (intRange s e) (-1, none)).1),
    hbounds, ?_, rfl, ?_, ?_, ?_, ?_, ?_, ?_, ?_⟩
  · intro j hj1 hj2
    exact hmin j ((mem_intRange s e j).mpr ⟨hj1, hj2⟩)
  · unfold split_helix_at_node
    simp only [hgetD]
  · unfold split_helix_at_node
    simp only [hgetD]
  · unfold split_helix_at_node
    simp only [hgetD]
  · by_cases hcase : s = (closestScan chain.nodes node (intRange s e) (-1, none)).1
    · rw [if_pos hcase]; omega
    · rw [if_neg hcase]; omega
  · by_cases hcase : s = (closestScan chain.nodes node (intRange s e) (-1, none)).1
    · rw [if_pos hcase]; omega
    · rw [if_neg hcase]; omega
  · intro j
    by_cases hcase : s = (closestScan chain.nodes node (intRange s e) (-1, none)).1
    · rw [if_pos hcase]; constructor <;> intro h <;> omega
    · rw [if_neg hcase]; constructor <;> intro h <;> omega
  · intro j
    by_cases hcase : s = (closestScan chain.nodes node (intRange s e) (-1, none)).1
    · rw [if_pos hcase]; omega
    · rw [if_neg hcase]; omega

/-- Witness for claim C3 on the chain with nodes `[(0,0,0), (3,0,0)]` and
the single helix range `[0, 2)`, split at axis point `(3,0,0)`. -/
theorem c3_split_replaces_range_with_partition_witness :
    ((Chain.mk [((0:ℝ), (0:ℝ), (0:ℝ)), ((3:ℝ), (0:ℝ), (0:ℝ))] [((0:ℤ), (2:ℤ))] []).helices[0]?
        = some (0, 2)) ∧
      (∃ raw cl : ℤ,
        ((0:ℤ) ≤ raw ∧ raw < 2) ∧
        (∀ j : ℤ, 0 ≤ j → j < 2 →
          get_distance
            (nodeAtZ (Chain.mk [((0:ℝ), (0:ℝ), (0:ℝ)), ((3:ℝ), (0:ℝ), (0:ℝ))]
              [((0:ℤ), (2:ℤ))] []).nodes raw) ((3:ℝ), (0:ℝ), (0:ℝ))
            ≤ get_distance
                (nodeAtZ (Chain.mk [((0:ℝ), (0:ℝ), (0:ℝ)), ((3:ℝ), (0:ℝ), (0:ℝ))]
                  [((0:ℤ), (2:ℤ))] []).nodes j) ((3:ℝ), (0:ℝ), (0:ℝ))) ∧
        cl = (if (0:ℤ) = raw then raw + 1 else raw) ∧
        (split_helix_at_node ((3:ℝ), (0:ℝ), (0:ℝ))
            (Chain.mk [((0:ℝ), (0:ℝ), (0:ℝ)), ((3:ℝ), (0:ℝ), (0:ℝ))] [((0:ℤ), (2:ℤ))] []) 0).helices
          = [((0:ℤ), (2:ℤ))].take 0 ++ [((0:ℤ), cl), (cl, (2:ℤ))] ++ [((0:ℤ), (2:ℤ))].drop 1 ∧
        (split_helix_at_node ((3:ℝ), (0:ℝ), (0:ℝ))
            (Chain.mk [((0:ℝ), (0:ℝ), (0:ℝ)), ((3:ℝ), (0:ℝ), (0:ℝ))] [((0:ℤ), (2:ℤ))] []) 0).nodes
          = [((0:ℝ), (0:ℝ), (0:ℝ)), ((3:ℝ), (0:ℝ), (0:ℝ))] ∧
        (split_helix_at_node ((3:ℝ), (0:ℝ), (0:ℝ))
            (Chain.mk [((0:ℝ), (0:ℝ), (0:ℝ)), ((3:ℝ), (0:ℝ), (0:ℝ))] [((0:ℤ), (2:ℤ))] []) 0).sheets
          = [] ∧
        (0:ℤ) < cl ∧ cl < 2 ∧
        (∀ j : ℤ, ((0:ℤ) ≤ j ∧ j < 2) ↔ (((0:ℤ) ≤ j ∧ j < cl) ∨ (cl ≤ j ∧ j < 2))) ∧
        (∀ j : ℤ, ¬ (((0:ℤ) ≤ j ∧ j < cl) ∧ (cl ≤ j ∧ j < 2)))) := by
  have hi : ((Chain.mk [((0:ℝ), (0:ℝ), (0:ℝ)), ((3:ℝ), (0:ℝ), (0:ℝ))]
      [((0:ℤ), (2:ℤ))] []).helices[0]? = some (0, 2)) := rfl
  exact ⟨hi,
    c3_split_replaces_range_with_partition ((3:ℝ), (0:ℝ), (0:ℝ))
      (Chain.mk [((0:ℝ), (0:ℝ), (0:ℝ)), ((3:ℝ), (0:ℝ), (0:ℝ))] [((0:ℤ), (2:ℤ))] []) 0 0 2 hi
      (by norm_num) (by norm_num) (by norm_num)⟩

/-!
## `Helix._set_screw_axis` (centroid windows)

The main loop appends each input node to a window, trims the window to the
`interval_size` most recent points, and emits the window's centroid once it
holds at least `min_interval_size` points.  The trailing loop then
repeatedly deletes the oldest point first and emits the centroid of what
remains, as long as at least `min_interval_size` points were present
before the deletion — so the emitted trailing centroids shrink down to
`min_interval_size - 1` points.
-/

/-- `get_centroid(nodes)`: componentwise average.  (Python would raise a
`ZeroDivisionError` on an empty list; the function is only applied to
windows of at least two points below.) -/
noncomputable def get_centroid (nodes : List P3) : P3 :=
  ((nodes.map fun n => n.1).sum / nodes.length,
   (nodes.map fun n => n.2.1).sum / nodes.length,
   (nodes.map fun n => n.2.2).sum / nodes.length)

/-- The per-node loop of `_set_screw_axis`: returns the final window
together with the centroids emitted, in order. -/
noncomputable def screwAux (interval_size min_interval_size : ℕ) :
    List P3 → List P3 → List P3 × List P3
  | interval, [] => (interval, [])
  | interval, node :: ns =>
    let w1 := interval ++ [node]
    let w2 := if interval_size < w1.length then w1.tail else w1
    let r := screwAux interval_size min_interval_size w2 ns
    (r.1, (if min_interval_size ≤ w2.length then [get_centroid w2] else []) ++ r.2)

/-- The trailing `while` loop of `_set_screw_axis`: while at least
`min_interval_size` points remain, delete the oldest and emit the centroid
of the remainder.  (Faithful for `min_interval_size ≥ 1`; the code is used
with `min_interval_size = 3`.) -/
noncomputable def screwTail (min_interval_size : ℕ) : List P3 → List P3
  | [] => []
  | a :: w =>
    if min_interval_size ≤ (a :: w).length
    then get_centroid w :: screwTail min_interval_size w
    else []

/-- `Helix._set_screw_axis(nodes)`: the centroid sequence from which the
screw-axis `Curve` is built. -/
noncomputable def set_screw_axis_centroids (interval_size min_interval_size : ℕ)
    (nodes : List P3) : List P3 :=
  (screwAux interval_size min_interval_size [] nodes).2
    ++ screwTail min_interval_size (screwAux interval_size min_interval_size [] nodes).1

/-- A value is the centroid of a run of at least `lo` (and at most 9)
consecutive input points. -/
def centroidOfRun (full : List P3) (lo : ℕ) (c : P3) : Prop :=
  ∃ i k : ℕ, lo ≤ k ∧ k ≤ 9 ∧ i + k ≤ full.length
    ∧ c = get_centroid ((full.drop i).take k)

theorem centroid_of_segment (pre w rest : List P3) (lo : ℕ)
    (hlo : lo ≤ w.length) (h9 : w.length ≤ 9) :
    centroidOfRun (pre ++ w ++ rest) lo (get_centroid w) := by
  refine ⟨pre.length, w.length, hlo, h9, ?_, ?_⟩
  · simp [List.length_append]
  · rw [List.append_assoc, List.drop_left, List.take_left]

theorem screwAux_run (suffix : List P3) :
    ∀ (pre interval : List P3), interval.length ≤ 9 →
      ((∃ pre2 : List P3,
          pre ++ interval ++ suffix = pre2 ++ (screwAux 9 3 interval suffix).1)
        ∧ (screwAux 9 3 interval suffix).1.length ≤ 9)
      ∧ ∀ c ∈ (screwAux 9 3 interval suffix).2,
          centroidOfRun (pre ++ interval ++ suffix) 3 c := by
  induction suffix with
  | nil =>
    intro pre interval hI
    refine ⟨⟨⟨pre, by simp [screwAux]⟩, by simpa [screwAux] using hI⟩, ?_⟩
    intro c hc
    simp [screwAux] at hc
  | cons node ns ih =>
    intro pre interval hI
    by_cases htrim : 9 < (interval ++ [node]).length
    · -- the window is full: drop the oldest point
      have hlen : interval.length = 9 := by
        rw [List.length_append, List.length_singleton] at htrim
        omega
      have hne : interval ≠ [] := by
        intro h; rw [h] at hlen; simp at hlen
      obtain ⟨q, qs, rfl⟩ := List.exists_cons_of_ne_nil hne
      have hw2 : ((q :: qs) ++ [node]).tail = qs ++ [node] := by
        simp
      have hstep : screwAux 9 3 (q :: qs) (node :: ns)
          = ((screwAux 9 3 (qs ++ [node]) ns).1,
             (if 3 ≤ (qs ++ [node]).length
              then [get_centroid (qs ++ [node])] else [])
               ++ (screwAux 9 3 (qs ++ [node]) ns).2) := by
        rw [screwAux]
        simp only [htrim, if_pos, hw2]
      have hlen2 : (qs ++ [node]).length ≤ 9 := by
        rw [List.length_cons] at hlen
        rw [List.length_append, List.length_singleton]
        omega
      have hfull : pre ++ (q :: qs) ++ (node :: ns)
          = (pre ++ [q]) ++ (qs ++ [node]) ++ ns := by
        simp
      obtain ⟨⟨⟨pre2, hsplit⟩, hwlen⟩, hcent⟩ := ih (pre ++ [q]) (qs ++ [node]) hlen2
      refine ⟨⟨⟨pre2, ?_⟩, ?_⟩, ?_⟩
      · rw [hstep]
        rw [hfull]
        exact hsplit
      · rw [hstep]
        exact hwlen
      · intro c hc
        rw [hstep] at hc
        simp only [List.mem_append] at hc
        rcases hc with hc | hc
        · by_cases h3 : 3 ≤ (qs ++ [node]).length
          · rw [if_pos h3] at hc
            rcases List.mem_singleton.mp hc with rfl
            rw [hfull]
            exact centroid_of_segment (pre ++ [q]) (qs ++ [node]) ns 3 h3 hlen2
          · rw [if_neg h3] at hc
            cases hc
        · rw [hfull]
          exact hcent c hc
    · -- the window keeps growing
      have hstep : screwAux 9 3 interval (node :: ns)
          = ((screwAux 9 3 (interval ++ [node]) ns).1,
             (if 3 ≤ (interval ++ [node]).length
              then [get_centroid (interval ++ [node])] else [])
               ++ (screwAux 9 3 (interval ++ [node]) ns).2) := by
        rw [screwAux]
        simp only [htrim, if_neg, ite_false]
      have hlen2 : (interval ++ [node]).length ≤ 9 := by
        rw [List.length_append, List.length_singleton]
        rw [List.length_append, List.length_singleton] at htrim
        omega
      have hfull : pre ++ interval ++ (node :: ns)
          = pre ++ (interval ++ [node]) ++ ns := by
        simp
      obtain ⟨⟨⟨pre2, hsplit⟩, hwlen⟩, hcent⟩ := ih pre (interval ++ [node]) hlen2
      refine ⟨⟨⟨pre2, ?_⟩, ?_⟩, ?_⟩
      · rw [hstep, hfull]
        exact hsplit
      · rw [hstep]
        exact hwlen
      · intro c hc
        rw [hstep] at hc
        simp only [List.mem_append] at hc
        rcases hc with hc | hc
        · by_cases h3 : 3 ≤ (interval ++ [node]).length
          · rw [if_pos h3] at hc
            rcases List.mem_singleton.mp hc with rfl
            rw [hfull]
            exact centroid_of_segment pre (interval ++ [node]) ns 3 h3 hlen2
          · rw [if_neg h3] at hc
            cases hc
        · rw [hfull]
          exact hcent c hc

theorem screwTail_run (w : List P3) :
    ∀ pre : List P3, w.length ≤ 9 →
      ∀ c ∈ screwTail 3 w, centroidOfRun (pre ++ w) 2 c := by
  induction w with
  | nil =>
    intro pre _ c hc
    rw [screwTail] at hc
    cases hc
  | cons a tl ih =>
    intro pre h9 c hc
    rw [screwTail] at hc
    by_cases h3 : 3 ≤ (a :: tl).length
    · rw [if_pos h3] at hc
      have hfull : pre ++ (a :: tl) = (pre ++ [a]) ++ tl ++ [] := by simp
      rcases List.mem_cons.mp hc with rfl | hc'
      · rw [hfull]
        refine centroid_of_segment (pre ++ [a]) tl [] 2 ?_ ?_
        · rw [List.length_cons] at h3; omega
        · rw [List.length_cons] at h9; omega
      · have := ih (pre ++ [a]) (by rw [List.length_cons] at h9; omega) c hc'
        rw [hfull]
        simpa using this
    · rw [if_neg h3] at hc
      cases hc

theorem screw_ex_eval :
    set_screw_axis_centroids 9 3
        [((0:ℝ), (0:ℝ), (0:ℝ)), ((1:ℝ), (0:ℝ), (0:ℝ)), ((5:ℝ), (0:ℝ), (0:ℝ))]
      = [((2:ℝ), (0:ℝ), (0:ℝ)), ((3:ℝ), (0:ℝ), (0:ℝ))] := by
  unfold set_screw_axis_centroids
  norm_num [screwAux, screwTail, get_centroid]

/-- Claim C7, counterexample.  On the three-point input
`[(0,0,0), (1,0,0), (5,0,0)]` (with `interval_size = 9` and
`min_interval_size = 3` as used by `fit_helices`) the emitted centroid list
is `[(2,0,0), (3,0,0)]`, and the trailing centroid `(3,0,0)` — the average
of only the last two points — is not the average of any `≥ 3` consecutive
input points, contradicting the claim that every emitted centroid averages
at least `min_interval_size` consecutive input points: the trailing loop
deletes the oldest point *before* emitting. -/
theorem c7_trailing_centroid_counterexample :
    ¬ (∀ c ∈ set_screw_axis_centroids 9 3
          [((0:ℝ), (0:ℝ), (0:ℝ)), ((1:ℝ), (0:ℝ), (0:ℝ)), ((5:ℝ), (0:ℝ), (0:ℝ))],
        ∃ i k : ℕ, 3 ≤ k
          ∧ i + k ≤ ([((0:ℝ), (0:ℝ), (0:ℝ)), ((1:ℝ), (0:ℝ), (0:ℝ)),
              ((5:ℝ), (0:ℝ), (0:ℝ))] : List P3).length
          ∧ c = get_centroid ((([((0:ℝ), (0:ℝ), (0:ℝ)), ((1:ℝ), (0:ℝ), (0:ℝ)),
              ((5:ℝ), (0:ℝ), (0:ℝ))] : List P3).drop i).take k)) := by
  intro h
  have hmem : ((3:ℝ), (0:ℝ), (0:ℝ)) ∈ set_screw_axis_centroids 9 3
      [((0:ℝ), (0:ℝ), (0:ℝ)), ((1:ℝ), (0:ℝ), (0:ℝ)), ((5:ℝ), (0:ℝ), (0:ℝ))] := by
    rw [screw_ex_eval]
    simp
  obtain ⟨i, k, hk, hik, hc⟩ := h _ hmem
  have hik' : i = 0 ∧ k = 3 := by
    rw [List.length_cons, List.length_cons, List.length_cons, List.length_nil] at hik
    omega
  obtain ⟨hi0, hk3⟩ := hik'
  subst hi0
  subst hk3
  rw [List.drop_zero] at hc
  norm_num [get_centroid] at hc

/-- Claim C7, amended.  For every input list: the main loop emits one
centroid per input position once the sliding window (capped at the
`interval_size = 9` most recent points) holds at least
`min_interval_size = 3` points; the trailing loop then deletes the oldest
point *first* and emits the centroid of the points remaining *after* the
deletion, repeating while at least `min_interval_size` points were present
before the deletion — so trailing centroids average as few as
`min_interval_size - 1 = 2` points.  Hence every emitted centroid is the
average of at least `min_interval_size - 1` (and at most `interval_size`)
consecutive input points, not of at least `min_interval_size` as claimed. -/
theorem c7_centroid_window_amended (nodes : List P3) (c : P3)
    (hc : c ∈ set_screw_axis_centroids 9 3 nodes) :
    ∃ i k : ℕ, 2 ≤ k ∧ k ≤ 9 ∧ i + k ≤ nodes.length
      ∧ c = get_centroid ((nodes.drop i).take k) := by
  unfold set_screw_axis_centroids at hc
  rcases List.mem_append.mp hc with hc | hc
  · have hrun := (screwAux_run nodes [] [] (by simp)).2 c hc
    simp only [List.nil_append] at hrun
    obtain ⟨i, k, h2, h9, hik, hceq⟩ := hrun
    exact ⟨i, k, by omega, h9, hik, hceq⟩
  · obtain ⟨⟨pre2, hsplit⟩, hwlen⟩ := (screwAux_run nodes [] [] (by simp)).1
    have hrun := screwTail_run _ pre2 hwlen c hc
    simp only [List.nil_append] at hsplit
    rw [← hsplit] at hrun
    obtain ⟨i, k, h2, h9, hik, hceq⟩ := hrun
    exact ⟨i, k, h2, h9, hik, hceq⟩

/-- Witness for the amended claim C7: the main-phase centroid `(2,0,0)` of
the three-point example input. -/
theorem c7_centroid_window_amended_witness :
    (((2:ℝ), (0:ℝ), (0:ℝ)) ∈ set_screw_axis_centroids 9 3
        [((0:ℝ), (0:ℝ), (0:ℝ)), ((1:ℝ), (0:ℝ), (0:ℝ)), ((5:ℝ), (0:ℝ), (0:ℝ))]) ∧
      (∃ i k : ℕ, 2 ≤ k ∧ k ≤ 9
        ∧ i + k ≤ ([((0:ℝ), (0:ℝ), (0:ℝ)), ((1:ℝ), (0:ℝ), (0:ℝ)),
            ((5:ℝ), (0:ℝ), (0:ℝ))] : List P3).length
        ∧ ((2:ℝ), (0:ℝ), (0:ℝ)) = get_centroid
            ((([((0:ℝ), (0:ℝ), (0:ℝ)), ((1:ℝ), (0:ℝ), (0:ℝ)),
                ((5:ℝ), (0:ℝ), (0:ℝ))] : List P3).drop i).take k)) := by
  have hmem : ((2:ℝ), (0:ℝ), (0:ℝ)) ∈ set_screw_axis_centroids 9 3
      [((0:ℝ), (0:ℝ), (0:ℝ)), ((1:ℝ), (0:ℝ), (0:ℝ)), ((5:ℝ), (0:ℝ), (0:ℝ))] := by
    rw [screw_ex_eval]
    simp
  exact ⟨hmem, c7_centroid_window_amended _ _ hmem⟩

/-!
## Termination of the `fit_helices` control loop

The `while i < len(chain.helices)` loop of `fit_helices` only ever reads
the suffix `chain.helices[i:]` (entries before the index are still
rewritten by `update_sec_structure` but never read again), so the loop is
modelled on that suffix.  The outcome of each fit attempt depends on
geometry (the screw axis and the scipy optimizer) not tracked by the
termination argument, so it is supplied by a step-indexed oracle; the only
fact the proof needs about a split outcome is the one established for
`split_helix_at_node` in claim C3: the split index lies strictly inside
the current range (the loop only attempts fits on ranges of length ≥ 10).
-/

/-- Outcome of one fit attempt as seen by the control loop: the fit either
succeeds (changing the chain's node count by `diff`) or raises
`CurvedScrewAxisError`, after which `split_helix_at_node` yields the bumped
closest index `c`. -/
inductive FitOutcome where
  | fitted (diff : ℤ)
  | curved (c : ℤ)

/-- One iteration of the loop body of `fit_helices`, on the suffix
`chain.helices[i:]`: skip short ranges, and otherwise either rebase the
later ranges by `diff` and advance, or split in place and do not advance. -/
def helixStep (ora : ℕ → List (ℤ × ℤ) → FitOutcome) (k : ℕ) :
    List (ℤ × ℤ) → List (ℤ × ℤ)
  | [] => []
  | (s, e) :: rest =>
    if e - s < 10 then rest
    else
      match ora k ((s, e) :: rest) with
      | .fitted diff => update_sec_structure rest s diff
      | .curved c => (s, c) :: (c, e) :: rest

/-- The loop with a fuel bound: `true` iff the work list empties within
`n` iterations starting from step counter `k`. -/
def helixLoop (ora : ℕ → List (ℤ × ℤ) → FitOutcome) :
    ℕ → ℕ → List (ℤ × ℤ) → Bool
  | 0, _, st => st.isEmpty
  | _ + 1, _, [] => true
  | n + 1, k, (s, e) :: rest => helixLoop ora n (k + 1) (helixStep ora k ((s, e) :: rest))

/-- The loop finishes in finitely many iterations from the given state. -/
def TerminatesFrom (ora : ℕ → List (ℤ × ℤ) → FitOutcome) (k : ℕ)
    (st : List (ℤ × ℤ)) : Prop :=
  ∃ n, helixLoop ora n k st = true

/-- The property of split outcomes established by claim C3: on a range of
length ≥ 10 (so in particular ≥ 2), the split index is strictly inside. -/
def OracleSplitsInside (ora : ℕ → List (ℤ × ℤ) → FitOutcome) : Prop :=
  ∀ (k : ℕ) (s e : ℤ) (rest : List (ℤ × ℤ)) (c : ℤ),
    10 ≤ e - s → ora k ((s, e) :: rest) = .curved c → s < c ∧ c < e

theorem terminates_of_step (ora : ℕ → List (ℤ × ℤ) → FitOutcome) (k : ℕ)
    (st : List (ℤ × ℤ)) (h : TerminatesFrom ora (k + 1) (helixStep ora k st)) :
    TerminatesFrom ora k st := by
  cases st with
  | nil => exact ⟨0, rfl⟩
  | cons r rest =>
    obtain ⟨n, hn⟩ := h
    rcases r with ⟨s, e⟩
    exact ⟨n + 1, hn⟩

/-- Ascending chain of sub-ranges: every range but possibly the last link
target is positive-length and consecutive ranges do not overlap.  This is
the shape of the prefix of split pieces the loop builds in front of the
untouched remainder of the work list. -/
def AscPos : List (ℤ × ℤ) → Prop
  | [] => True
  | [(s, e)] => s < e
  | (s, e) :: (s2, e2) :: rest => s < e ∧ e ≤ s2 ∧ AscPos ((s2, e2) :: rest)

theorem ascpos_head (s e : ℤ) (rest : List (ℤ × ℤ)) (h : AscPos ((s, e) :: rest)) :
    s < e := by
  cases rest with
  | nil => exact h
  | cons r2 rest2 =>
    rcases r2 with ⟨s2, e2⟩
    exact h.1

theorem ascpos_tail (s e : ℤ) (rest : List (ℤ × ℤ)) (h : AscPos ((s, e) :: rest)) :
    AscPos rest := by
  cases rest with
  | nil => trivial
  | cons r2 rest2 =>
    rcases r2 with ⟨s2, e2⟩
    exact h.2.2

theorem ascpos_bound (rest : List (ℤ × ℤ)) :
    ∀ (s e : ℤ), AscPos ((s, e) :: rest) →
      ∀ r ∈ rest, e ≤ r.1 ∧ r.1 < r.2 := by
  induction rest with
  | nil =>
    intro s e _ r hr
    exact absurd hr (List.not_mem_nil r)
  | cons r2 rest2 ih =>
    intro s e h r hr
    rcases r2 with ⟨s2, e2⟩
    obtain ⟨h1, h2, h3⟩ := h
    rcases List.mem_cons.mp hr with rfl | hr'
    · exact ⟨h2, ascpos_head s2 e2 rest2 h3⟩
    · have := ih s2 e2 h3 r hr'
      have hs2e2 := ascpos_head s2 e2 rest2 h3
      exact ⟨by omega, this.2⟩

theorem ascpos_shift (d : ℤ) (l : List (ℤ × ℤ)) (h : AscPos l) :
    AscPos (l.map fun r => (r.1 + d, r.2 + d)) := by
  induction l with
  | nil => trivial
  | cons r rest ih =>
    rcases r with ⟨s, e⟩
    cases rest with
    | nil =>
      show s + d < e + d
      have := ascpos_head s e [] h
      omega
    | cons r2 rest2 =>
      rcases r2 with ⟨s2, e2⟩
      obtain ⟨h1, h2, h3⟩ := h
      exact ⟨by omega, by omega, ih h3⟩

theorem ascpos_split (s e c : ℤ) (rest : List (ℤ × ℤ)) (h : AscPos ((s, e) :: rest))
    (h1 : s < c) (h2 : c < e) : AscPos ((s, c) :: (c, e) :: rest) := by
  refine ⟨h1, le_refl c, ?_⟩
  cases rest with
  | nil => exact h2
  | cons r2 rest2 =>
    rcases r2 with ⟨s2, e2⟩
    exact ⟨h2, h.2.1, h.2.2⟩

/-- Weight of one range for the termination measure: positive, invariant
under shifting, and strictly super-additive under splitting. -/
def pieceWeight (r : ℤ × ℤ) : ℕ := (3 * (r.2 - r.1) - 2).toNat + 1

/-- Termination measure of the prefix of split pieces. -/
def piecesMeasure (l : List (ℤ × ℤ)) : ℕ := (l.map pieceWeight).sum

theorem pieceWeight_shift (r : ℤ × ℤ) (d : ℤ) :
    pieceWeight (r.1 + d, r.2 + d) = pieceWeight r := by
  unfold pieceWeight
  congr 1
  omega

theorem piecesMeasure_shift (l : List (ℤ × ℤ)) (d : ℤ) :
    piecesMeasure (l.map fun r => (r.1 + d, r.2 + d)) = piecesMeasure l := by
  unfold piecesMeasure
  rw [List.map_map]
  congr 1
  apply List.map_congr_left
  intro r _
  exact pieceWeight_shift r d

theorem update_sec_structure_length (l : List (ℤ × ℤ)) (ns d : ℤ) :
    (update_sec_structure l ns d).length = l.length :=
  List.length_map _ _

theorem update_sec_structure_append (l1 l2 : List (ℤ × ℤ)) (ns d : ℤ) :
    update_sec_structure (l1 ++ l2) ns d
      = update_sec_structure l1 ns d ++ update_sec_structure l2 ns d :=
  List.map_append _ _ _

theorem update_sec_structure_all_above (l : List (ℤ × ℤ)) (ns d : ℤ)
    (h : ∀ r ∈ l, ns < r.1 ∧ ns < r.2) :
    update_sec_structure l ns d = l.map fun r => (r.1 + d, r.2 + d) := by
  unfold update_sec_structure
  apply List.map_congr_left
  intro r hr
  obtain ⟨h1, h2⟩ := h r hr
  rw [if_pos h1, if_pos h2]

theorem pieceWeight_pos (r : ℤ × ℤ) : 1 ≤ pieceWeight r := by
  unfold pieceWeight
  omega

theorem piecesMeasure_cons (r : ℤ × ℤ) (l : List (ℤ × ℤ)) :
    piecesMeasure (r :: l) = pieceWeight r + piecesMeasure l := by
  unfold piecesMeasure
  rw [List.map_cons, List.sum_cons]

theorem pieceWeight_split (s c e : ℤ) (h1 : s < c) (h2 : c < e) :
    pieceWeight (s, c) + pieceWeight (c, e) < pieceWeight (s, e) := by
  unfold pieceWeight
  simp only []
  omega

/-- Core induction: processing an ascending prefix of split pieces in
front of an arbitrary remainder terminates, provided every same-length
remainder terminates from any step counter.  The measure is the summed
piece weight: skipping or fitting the head removes its weight, and a split
strictly decreases it; fitting shifts the later pieces uniformly (their
boundaries all exceed the head's start by `AscPos`), preserving both the
chain shape and the measure. -/
theorem helixLoop_pieces (ora : ℕ → List (ℤ × ℤ) → FitOutcome)
    (hora : OracleSplitsInside ora) :
    ∀ (w : ℕ) (P rest : List (ℤ × ℤ)) (k : ℕ),
      piecesMeasure P ≤ w → AscPos P →
      (∀ (k' : ℕ) (rest' : List (ℤ × ℤ)), rest'.length = rest.length →
        TerminatesFrom ora k' rest') →
      TerminatesFrom ora k (P ++ rest) := by
  intro w
  induction w using Nat.strong_induction_on with
  | _ w ih =>
    intro P rest k hw hasc hrest
    cases P with
    | nil => simpa using hrest k rest rfl
    | cons r P' =>
      rcases r with ⟨s, e⟩
      have hw1 : piecesMeasure P' < w := by
        rw [piecesMeasure_cons] at hw
        have := pieceWeight_pos (s, e)
        omega
      apply terminates_of_step
      show TerminatesFrom ora (k + 1) (helixStep ora k ((s, e) :: (P' ++ rest)))
      by_cases hskip : e - s < 10
      · rw [helixStep, if_pos hskip]
        exact ih (piecesMeasure P') hw1 P' rest (k + 1) le_rfl
          (ascpos_tail s e P' hasc) hrest
      · have hge : 10 ≤ e - s := by omega
        rcases hor : ora k ((s, e) :: (P' ++ rest)) with diff | c
        · -- fit succeeded: rebase the remainder and advance
          rw [helixStep, if_neg hskip, hor]
          show TerminatesFrom ora (k + 1) (update_sec_structure (P' ++ rest) s diff)
          rw [update_sec_structure_append]
          have habove : ∀ r ∈ P', s < r.1 ∧ s < r.2 := by
            intro r hr
            have hb := ascpos_bound P' s e hasc r hr
            have hh := ascpos_head s e P' hasc
            omega
          rw [update_sec_structure_all_above P' s diff habove]
          apply ih (piecesMeasure P') hw1 (P'.map fun r => (r.1 + diff, r.2 + diff))
            (update_sec_structure rest s diff) (k + 1)
          · rw [piecesMeasure_shift]
          · exact ascpos_shift diff P' (ascpos_tail s e P' hasc)
          · intro k' rest' hlen'
            apply hrest k' rest'
            rw [hlen', update_sec_structure_length]
        · -- curvature violation: split strictly inside and retry
          obtain ⟨hc1, hc2⟩ := hora k s e (P' ++ rest) c hge hor
          rw [helixStep, if_neg hskip, hor]
          show TerminatesFrom ora (k + 1) (((s, c) :: (c, e) :: P') ++ rest)
          have hmeas : piecesMeasure ((s, c) :: (c, e) :: P') < w := by
            rw [piecesMeasure_cons, piecesMeasure_cons]
            rw [piecesMeasure_cons] at hw
            have := pieceWeight_split s c e hc1 hc2
            omega
          exact ih (piecesMeasure ((s, c) :: (c, e) :: P')) hmeas _ rest (k + 1) le_rfl
            (ascpos_split s e c P' hasc hc1 hc2) hrest

/-- The per-chain loop terminates from every state, by strong induction on
the number of remaining work-list entries: skipping or fitting the head
leaves one entry fewer (with arbitrary rebased values, which the induction
hypothesis absorbs), and the split phase of a single long head is finite by
`helixLoop_pieces`. -/
theorem fit_helices_terminates_aux (ora : ℕ → List (ℤ × ℤ) → FitOutcome)
    (hora : OracleSplitsInside ora) :
    ∀ (n : ℕ) (st : List (ℤ × ℤ)) (k : ℕ), st.length = n → TerminatesFrom ora k st := by
  intro n
  induction n using Nat.strong_induction_on with
  | _ n ih =>
    intro st k hlen
    cases st with
    | nil => exact ⟨0, rfl⟩
    | cons r rest =>
      rcases r with ⟨s, e⟩
      have hrest : ∀ (k' : ℕ) (rest' : List (ℤ × ℤ)), rest'.length = rest.length →
          TerminatesFrom ora k' rest' := by
        intro k' rest' hlen'
        apply ih rest'.length _ rest' k' rfl
        rw [hlen']
        rw [List.length_cons] at hlen
        omega
      by_cases hskip : e - s < 10
      · apply terminates_of_step
        show TerminatesFrom ora (k + 1) (helixStep ora k ((s, e) :: rest))
        rw [helixStep, if_pos hskip]
        exact hrest (k + 1) rest rfl
      · have hasc : AscPos [(s, e)] := by
          show s < e
          omega
        have := helixLoop_pieces ora hora (piecesMeasure [(s, e)]) [(s, e)] rest k
          le_rfl hasc hrest
        simpa using this

/-- Claim C6.  The `fit_helices` loop terminates for every input work
list: every split produces two strictly shorter, nonempty children
(`OracleSplitsInside`, the property proved for `split_helix_at_node` in
claim C3), ranges shorter than 10 nodes are skipped without fitting, and
hence only finitely many splits and fit attempts occur before the loop
index passes the end of the work list — for every chain, every starting
step counter, and every behaviour of the fit attempts (the step-indexed
oracle covers every execution trace, including arbitrary node-count
changes rebasing the later ranges).  The outer `for chain in chains` loop
is a finite iteration of this per-chain loop. -/
theorem c6_fit_helices_terminates (ora : ℕ → List (ℤ × ℤ) → FitOutcome)
    (hora : OracleSplitsInside ora) (helices : List (ℤ × ℤ)) (k : ℕ) :
    TerminatesFrom ora k helices :=
  fit_helices_terminates_aux ora hora helices.length helices k rfl

/-- Witness for claim C6: the always-successful oracle on the single
work-list entry `[0, 12)`. -/
theorem c6_fit_helices_terminates_witness :
    OracleSplitsInside (fun _ _ => FitOutcome.fitted 0) ∧
      TerminatesFrom (fun _ _ => FitOutcome.fitted 0) 0 [((0:ℤ), (12:ℤ))] := by
  have hora : OracleSplitsInside (fun _ _ => FitOutcome.fitted 0) := by
    intro k s e rest c _ heq
    exact FitOutcome.noConfusion heq
  exact ⟨hora, c6_fit_helices_terminates _ hora [((0:ℤ), (12:ℤ))] 0⟩

/-!
## `write_pdb` / `read_pdb` (record-level model of the PDB text layer)

Each line of the file is modelled as one record carrying the values the
formatter puts into the line's fixed-column fields.  `format_node` writes
`'ATOM      1  CA  GLY '` (21 characters), the chain id,
`str(n).rjust(4)`, four spaces, and then the three coordinates, each
`'{0:.3f}'.format(·).rjust(8)`, at columns `[30:38]`, `[38:46]`,
`[46:54]`; an `atomRec` carries the three rounded values those fields
hold.  `parse_node`, however, reads the slices `[31:38]`, `[39:46]`,
`[47:54]` — the last seven columns of each eight-column field — so a
field is read back intact exactly when its 3-decimal rendering takes at
most seven characters, i.e. when the rounded value lies strictly between
-100 and 1000 (the skipped column is then a padding space).  An
eight-character rendering loses its leading character to the skipped
column (`-100.000` reads back as `100.0`, `1000.000` as `0.0`), and a
nine-character one overflows the field and shifts every later column of
the line.  `readStep` reproduces this through `sliceCoord`: exact on
renderings of up to eight characters, out of model (state left unchanged)
beyond that.  `format_helix_info` / `format_sheet_info` place their two
index fields, each `str(·).rjust(4)`, exactly at the four-column slices
`parse_helix` / `parse_sheet` read back (columns `[21:25]` and `[33:37]`,
resp. `[22:26]` and `[33:37]`), so a `helixRec` / `sheetRec` carries the
two integers written (`str(node_from + 1)` / `str(node_to)` for helices,
both `+ 1` for sheets); a `str` rendering of more than four characters
(an integer outside `[-999, 9999]`) overflows its field and shifts the
remaining columns of the line, which `readStep` likewise treats as out of
model (the `intFits4` guard), left unchanged.  `TER` terminates a chain's
atom block.  `write_pdb` emits all atom blocks, then all helix records,
then all sheet records, maintaining the running
`offset += len(chain.nodes) + 1`.  `read_pdb` starts from one empty
chain, appends a fresh chain at each `TER`, pushes parsed atoms onto the
last chain, and resolves helix/sheet records by walking the chains and
subtracting `len(chain.nodes) + 1` until the end value fits the chain
(`<=` for helices, `<` for sheets), then appends the range to that chain.
A walk that falls off the end of the chain list (an uncaught Python
`IndexError`) leaves the state unchanged in the model; it is unreachable
for the files produced by `write_pdb` under the claims' validity
hypotheses.
-/

/-- One line of the PDB file, at record level. -/
inductive PdbRec where
  | atomRec (p : P3)
  | terRec
  | helixRec (a b : ℤ)
  | sheetRec (a b : ℤ)

/-- Rounding to three decimals: the effect of `'{0:.3f}'.format` followed
by `float()` on re-read (the format's round-half-even on binary floats is
idealised to round-half-up on reals). -/
noncomputable def round3 (x : ℝ) : ℝ := ((⌊x * 1000 + 1 / 2⌋ : ℤ) : ℝ) / 1000

/-- Componentwise 3-decimal rounding of a node. -/
noncomputable def round3P (p : P3) : P3 := (round3 p.1, round3 p.2.1, round3 p.2.2)

/-- What `float(line[31:38])` recovers from the x-field of a node line
(same for y and z, shifted by 8).  `format_node` right-justifies the
3-decimal rendering of the coordinate in the field's 8 columns, and the
parse slice skips the field's first column.  A rendering of at most 7
characters — rounded value strictly between -100 and 1000 — only loses a
padding space and is recovered exactly.  A rendering of exactly 8
characters loses its leading character: the sign for rounded values in
(-1000, -100] (`-100.000` re-reads as `100.000`), the thousands digit for
rounded values in [1000, 10000) (`1000.000` re-reads as `000.000`).  A
rendering of 9 or more characters (rounded value at most -1000 or at
least 10000) overflows the 8-column field and shifts every later column
of the line, which the record-level model does not represent: `none`. -/
noncomputable def sliceCoord (q : ℝ) : Option ℝ :=
  if -100 < q ∧ q < 1000 then some q
  else if -1000 < q ∧ q ≤ -100 then some (-q)
  else if 1000 ≤ q ∧ q < 10000 then some (q - 1000 * ((⌊q / 1000⌋ : ℤ) : ℝ))
  else none

/-- `parse_node` over the three coordinate fields of one `ATOM` line:
componentwise `sliceCoord`, defined only while every field stays inside
its own 8 columns (otherwise the line is misaligned as a whole). -/
noncomputable def sliceP3 : P3 → Option P3
  | (x, y, z) =>
    match sliceCoord x, sliceCoord y, sliceCoord z with
    | some a, some b, some c => some (a, b, c)
    | _, _, _ => none

/-- `str(n).rjust(4)` stays inside its 4 columns: the decimal rendering of
`n` takes at most 4 characters. -/
def intFits4 (n : ℤ) : Prop := -999 ≤ n ∧ n ≤ 9999

instance intFits4.decidable (n : ℤ) : Decidable (intFits4 n) :=
  inferInstanceAs (Decidable (-999 ≤ n ∧ n ≤ 9999))

/-- The atom blocks of `write_pdb`: each chain's nodes, then `TER`.  An
`atomRec` carries, for each of the line's three 8-column coordinate
fields, the rounded value whose 3-decimal rendering the field holds
(right-justified); whether `parse_node`'s one-column-short slices recover
it is the reader's business (`sliceCoord` in `readStep`). -/
noncomputable def writeAtoms : List Chain → List PdbRec
  | [] => []
  | c :: cs =>
    (c.nodes.map fun p => PdbRec.atomRec (round3P p)) ++ [PdbRec.terRec] ++ writeAtoms cs

/-- The helix records of `write_pdb` (`format_helix_info('A', start + offset,
end + offset)`).  The record carries the two integers handed to
`str(·).rjust(4)`: `start + offset + 1` and `end + offset`.  The line
holds their renderings at columns `[21:25]` and `[33:37]` only while each
fits its 4 columns (`intFits4`, checked where the parse slices are
taken, in `readStep`); a wider rendering shifts the later columns. -/
def writeHelices : List Chain → ℤ → List PdbRec
  | [], _ => []
  | c :: cs, off =>
    (c.helices.map fun r => PdbRec.helixRec (r.1 + off + 1) (r.2 + off))
      ++ writeHelices cs (off + (c.nodes.length : ℤ) + 1)

/-- The sheet records of `write_pdb` (`format_sheet_info`).  The record
carries the two integers handed to `str(·).rjust(4)`: `start + offset + 1`
and `end + offset + 1`, rendered at columns `[22:26]` and `[33:37]`; the
same 4-column proviso as for `writeHelices` applies. -/
def writeSheets : List Chain → ℤ → List PdbRec
  | [], _ => []
  | c :: cs, off =>
    (c.sheets.map fun r => PdbRec.sheetRec (r.1 + off + 1) (r.2 + off + 1))
      ++ writeSheets cs (off + (c.nodes.length : ℤ) + 1)

/-- `write_pdb(chains)`. -/
noncomputable def write_pdb (chains : List Chain) : List PdbRec :=
  writeAtoms chains ++ writeHelices chains 0 ++ writeSheets chains 0

/-- The chain with no content, as appended at each `TER`. -/
def emptyChain : Chain := { nodes := [], helices := [], sheets := [] }

/-- `chains[-1].nodes.append(node)`: push an atom onto the last chain. -/
def pushNode : List Chain → P3 → List Chain
  | [], _ => []
  | [c], p => [{ c with nodes := c.nodes ++ [p] }]
  | c :: c2 :: cs, p => c :: pushNode (c2 :: cs) p

/-- The chain walk of `parse_helix`: stop at the first chain whose node
count bounds the end value (`data[1] <= len(chain.nodes)`), otherwise
subtract `len(chain.nodes) + 1` from both values and continue. -/
def helixWalk : List Chain → ℤ → ℤ → ℕ → Option (ℕ × ℤ × ℤ)
  | [], _, _, _ => none
  | c :: cs, a, b, i =>
    if b ≤ (c.nodes.length : ℤ) then some (i, a, b)
    else helixWalk cs (a - ((c.nodes.length : ℤ) + 1)) (b - ((c.nodes.length : ℤ) + 1)) (i + 1)

/-- The chain walk of `parse_sheet` (strict comparison
`data[1] < len(chain.nodes)`). -/
def sheetWalk : List Chain → ℤ → ℤ → ℕ → Option (ℕ × ℤ × ℤ)
  | [], _, _, _ => none
  | c :: cs, a, b, i =>
    if b < (c.nodes.length : ℤ) then some (i, a, b)
    else sheetWalk cs (a - ((c.nodes.length : ℤ) + 1)) (b - ((c.nodes.length : ℤ) + 1)) (i + 1)

/-- `chains[i].helices.append(data)`. -/
def addHelixAt : List Chain → ℕ → ℤ × ℤ → List Chain
  | [], _, _ => []
  | c :: cs, 0, r => { c with helices := c.helices ++ [r] } :: cs
  | c :: cs, Nat.succ i, r => c :: addHelixAt cs i r

/-- `chains[i].sheets.append(data)`. -/
def addSheetAt : List Chain → ℕ → ℤ × ℤ → List Chain
  | [], _, _ => []
  | c :: cs, 0, r => { c with sheets := c.sheets ++ [r] } :: cs
  | c :: cs, Nat.succ i, r => c :: addSheetAt cs i r

/-- One line of `read_pdb`.  An `ATOM` line goes through the coordinate
slices (`sliceCoord`, which drops the leading column of each 8-column
field); a `HELIX`/`SHEET` line is resolved from its two 4-column index
slices, which hold the written integers only while their renderings fit
(`intFits4`).  The cases the record-level model does not represent — a
field overflowing its columns and misaligning the rest of the line — leave
the state unchanged, and every theorem below excludes them by hypothesis
(`recFitsColumns`). -/
noncomputable def readStep (chains : List Chain) : PdbRec → List Chain
  | .terRec => chains ++ [emptyChain]
  | .atomRec p =>
    match sliceP3 p with
    | some q => pushNode chains q
    | none => chains
  | .helixRec a b =>
    if intFits4 a ∧ intFits4 b then
      match helixWalk chains (a - 1) b 0 with
      | some (i, s, e) => addHelixAt chains i (s, e)
      | none => chains
    else chains
  | .sheetRec a b =>
    if intFits4 a ∧ intFits4 b then
      match sheetWalk chains (a - 1) (b - 1) 0 with
      | some (i, s, e) => addSheetAt chains i (s, e)
      | none => chains
    else chains

/-- `read_pdb`, over the record stream. -/
noncomputable def read_pdb (recs : List PdbRec) : List Chain :=
  recs.foldl readStep [emptyChain]

theorem sliceCoord_of_fits (q : ℝ) (h1 : -100 < q) (h2 : q < 1000) :
    sliceCoord q = some q := by
  unfold sliceCoord
  rw [if_pos ⟨h1, h2⟩]

theorem round3_zero : round3 0 = 0 := by
  have h : ⌊(0:ℝ) * 1000 + 1 / 2⌋ = 0 := by
    rw [Int.floor_eq_iff]
    norm_num
  unfold round3
  rw [h]
  norm_num

theorem round3_neg_hundred : round3 (-100) = -100 := by
  have h : ⌊(-100:ℝ) * 1000 + 1 / 2⌋ = -100000 := by
    rw [Int.floor_eq_iff]
    norm_num
  unfold round3
  rw [h]
  norm_num

/-- The parse-side column loss in action: the node `(-100, 0, 0)` is
written with an x-field holding `-100.000`, which fills all 8 of the
field's columns; `parse_node`'s slice `[31:38]` starts one column late,
the sign is lost, and the chain reads back with node `(100, 0, 0)`. -/
theorem read_write_drops_sign_of_wide_coordinate :
    read_pdb (write_pdb [Chain.mk [((-100:ℝ), (0:ℝ), (0:ℝ))] [] []])
      = [Chain.mk [((100:ℝ), (0:ℝ), (0:ℝ))] [] [], emptyChain] := by
  have hr3 : round3P ((-100:ℝ), (0:ℝ), (0:ℝ)) = ((-100:ℝ), (0:ℝ), (0:ℝ)) := by
    show (round3 (-100), round3 0, round3 0) = _
    rw [round3_neg_hundred, round3_zero]
  have hslice : sliceP3 ((-100:ℝ), (0:ℝ), (0:ℝ)) = some ((100:ℝ), (0:ℝ), (0:ℝ)) := by
    show (match sliceCoord (-100:ℝ), sliceCoord (0:ℝ), sliceCoord (0:ℝ) with
      | some a, some b, some c => some (a, b, c)
      | _, _, _ => none) = some ((100:ℝ), (0:ℝ), (0:ℝ))
    rw [show sliceCoord (-100:ℝ) = some (100:ℝ) from by
      unfold sliceCoord
      rw [if_neg (by norm_num), if_pos (by norm_num)]
      norm_num]
    rw [sliceCoord_of_fits 0 (by norm_num) (by norm_num)]
  show List.foldl readStep [emptyChain] (write_pdb _) = _
  rw [show write_pdb [Chain.mk [((-100:ℝ), (0:ℝ), (0:ℝ))] [] []]
      = [PdbRec.atomRec (round3P ((-100:ℝ), (0:ℝ), (0:ℝ))), PdbRec.terRec] from by
    norm_num [write_pdb, writeAtoms, writeHelices, writeSheets]]
  rw [List.foldl_cons, List.foldl_cons, List.foldl_nil, hr3]
  rw [show readStep [emptyChain] (PdbRec.atomRec ((-100:ℝ), (0:ℝ), (0:ℝ)))
      = pushNode [emptyChain] ((100:ℝ), (0:ℝ), (0:ℝ)) from by
    show (match sliceP3 ((-100:ℝ), (0:ℝ), (0:ℝ)) with
      | some q => pushNode [emptyChain] q
      | none => [emptyChain]) = pushNode [emptyChain] ((100:ℝ), (0:ℝ), (0:ℝ))
    rw [hslice]]
  rfl

/-- `nodes[j]` for a natural index (all scan indices are in range). -/
def nodeAt (nodes : List P3) (j : ℕ) : P3 :=
  nodes.getD j ((0:ℝ), (0:ℝ), (0:ℝ))

/-- `normalize(v)`: the zero vector is returned unchanged, otherwise the
componentwise division by the norm. -/
noncomputable def normalize3 (v : P3) : P3 :=
  if norm3 v = 0 then v
  else (v.1 / norm3 v, v.2.1 / norm3 v, v.2.2 / norm3 v)

/-- `angle_between(v1, v2) = arccos(clip(dot(v1_u, v2_u), -1, 1)) * 180/pi`. -/
noncomputable def angle_between (v1 v2 : P3) : ℝ :=
  Real.arccos (min 1 (max (-1) (dot3 (normalize3 v1) (normalize3 v2)))) * (180 / Real.pi)

/-- The angle stored into the integer accumulator at interior index `j`
(`0` outside the scanned indices): the floor is the toward-zero truncation
performed by the numpy int64 assignment, since the angle is nonnegative. -/
noncomputable def truncAngleAt (nodes : List P3) (j : ℕ) : ℤ :=
  if 1 ≤ j then
    ⌊angle_between (get_vector (nodeAt nodes (j - 1)) (nodeAt nodes j))
                   (get_vector (nodeAt nodes j) (nodeAt nodes (j + 1)))⌋
  else 0

/-- The sum of the (up to) last three stored angles at interior index `i`. -/
noncomputable def truncWindowSum (nodes : List P3) (i : ℕ) : ℤ :=
  truncAngleAt nodes i + truncAngleAt nodes (i - 1) + truncAngleAt nodes (i - 2)

/-- The scan loop of `get_node_max_angle` over the remaining indices,
with the circular accumulator `buf`. -/
noncomputable def maxAngleScan (nodes : List P3) (max_angle : ℝ) (interval_size : ℕ) :
    List ℕ → List ℤ → Option P3
  | [], _ => none
  | i :: is, buf =>
    let buf' := buf.set (i % interval_size)
      ⌊angle_between (get_vector (nodeAt nodes (i - 1)) (nodeAt nodes i))
                     (get_vector (nodeAt nodes i) (nodeAt nodes (i + 1)))⌋
    if max_angle < ((buf'.sum : ℤ) : ℝ)
    then some (nodeAt nodes (i - interval_size / 2))
    else maxAngleScan nodes max_angle interval_size is buf'

/-- `Curve.get_node_max_angle(max_angle, interval_size)` on the control
nodes: scan `i in range(1, len(nodes) - 1)` with an all-zero integer
accumulator of size `interval_size`. -/
noncomputable def get_node_max_angle (nodes : List P3) (max_angle : ℝ)
    (interval_size : ℕ) : Option P3 :=
  maxAngleScan nodes max_angle interval_size
    (List.range' 1 (nodes.length - 2)) (List.replicate interval_size 0)

/-- Invariant of the circular 3-slot accumulator just before index `i` is
processed: the slot about to be overwritten holds the stored angle of
`i - 3`, the other two hold those of `i - 2` and `i - 1`, and the sum is
their total (indices below `1` contribute `0`). -/
def BufInv3 (nodes : List P3) (i : ℕ) (buf : List ℤ) : Prop :=
  buf.length = 3 ∧
  buf.getD (i % 3) 0 = truncAngleAt nodes (i - 3) ∧
  buf.getD ((i + 1) % 3) 0 = truncAngleAt nodes (i - 2) ∧
  buf.getD ((i + 2) % 3) 0 = truncAngleAt nodes (i - 1) ∧
  buf.sum = truncAngleAt nodes (i - 1) + truncAngleAt nodes (i - 2)
    + truncAngleAt nodes (i - 3)

theorem bufInv3_start (nodes : List P3) : BufInv3 nodes 1 (List.replicate 3 0) := by
  unfold BufInv3 truncAngleAt
  norm_num

theorem bufInv3_step (nodes : List P3) (i : ℕ) (buf : List ℤ) (hi : 1 ≤ i)
    (h : BufInv3 nodes i buf) :
    BufInv3 nodes (i + 1) (buf.set (i % 3) (truncAngleAt nodes i)) ∧
      (buf.set (i % 3) (truncAngleAt nodes i)).sum = truncWindowSum nodes i := by
  obtain ⟨hlen, h0, h1, h2, hsum⟩ := h
  rcases buf with _ | ⟨b0, buf⟩
  · simp at hlen
  rcases buf with _ | ⟨b1, buf⟩
  · simp at hlen
  rcases buf with _ | ⟨b2, buf⟩
  · simp at hlen
  rcases buf with _ | ⟨b3, buf⟩
  · clear hlen
    have e1 : i + 1 - 3 = i - 2 := by omega
    have e2 : i + 1 - 2 = i - 1 := by omega
    have e3 : i + 1 - 1 = i := by omega
    have hm : i % 3 = 0 ∨ i % 3 = 1 ∨ i % 3 = 2 := by omega
    unfold BufInv3 truncWindowSum
    rw [e1, e2, e3]
    rcases hm with hm | hm | hm
    · have hm1 : (i + 1) % 3 = 1 := by omega
      have hm2 : (i + 2) % 3 = 2 := by omega
      have hm3 : (i + 1 + 1) % 3 = 2 := by omega
      have hm4 : (i + 1 + 2) % 3 = 0 := by omega
      have g1 : b1 = truncAngleAt nodes (i - 2) := by rw [hm1] at h1; exact h1
      have g2 : b2 = truncAngleAt nodes (i - 1) := by rw [hm2] at h2; exact h2
      have hbuf : [b0, b1, b2].set (i % 3) (truncAngleAt nodes i)
          = [truncAngleAt nodes i, b1, b2] := by rw [hm]; rfl
      rw [hbuf, hm1, hm3, hm4]
      refine ⟨⟨rfl, ?_, ?_, rfl, ?_⟩, ?_⟩
      · exact g1
      · exact g2
      · simp only [List.sum_cons, List.sum_nil]
        rw [g1, g2]
        ring
      · simp only [List.sum_cons, List.sum_nil]
        rw [g1, g2]
        ring
    · have hm1 : (i + 1) % 3 = 2 := by omega
      have hm2 : (i + 2) % 3 = 0 := by omega
      have hm3 : (i + 1 + 1) % 3 = 0 := by omega
      have hm4 : (i + 1 + 2) % 3 = 1 := by omega
      have g1 : b2 = truncAngleAt nodes (i - 2) := by rw [hm1] at h1; exact h1
      have g2 : b0 = truncAngleAt nodes (i - 1) := by rw [hm2] at h2; exact h2
      have hbuf : [b0, b1, b2].set (i % 3) (truncAngleAt nodes i)
          = [b0, truncAngleAt nodes i, b2] := by rw [hm]; rfl
      rw [hbuf, hm1, hm3, hm4]
      refine ⟨⟨rfl, ?_, ?_, rfl, ?_⟩, ?_⟩
      · exact g1
      · exact g2
      · simp only [List.sum_cons, List.sum_nil]
        rw [g1, g2]
        ring
      · simp only [List.sum_cons, List.sum_nil]
        rw [g1, g2]
        ring
    · have hm1 : (i + 1) % 3 = 0 := by omega
      have hm2 : (i + 2) % 3 = 1 := by omega
      have hm3 : (i + 1 + 1) % 3 = 1 := by omega
      have hm4 : (i + 1 + 2) % 3 = 2 := by omega
      have g1 : b0 = truncAngleAt nodes (i - 2) := by rw [hm1] at h1; exact h1
      have g2 : b1 = truncAngleAt nodes (i - 1) := by rw [hm2] at h2; exact h2
      have hbuf : [b0, b1, b2].set (i % 3) (truncAngleAt nodes i)
          = [b0, b1, truncAngleAt nodes i] := by rw [hm]; rfl
      rw [hbuf, hm1, hm3, hm4]
      refine ⟨⟨rfl, ?_, ?_, rfl, ?_⟩, ?_⟩
      · exact g1
      · exact g2
      · simp only [List.sum_cons, List.sum_nil]
        rw [g1, g2]
        ring
      · simp only [List.sum_cons, List.sum_nil]
        rw [g1, g2]
        ring
  · simp at hlen

theorem maxAngleScan_cons (nodes : List P3) (ma : ℝ) (isz : ℕ) (i : ℕ) (is : List ℕ)
    (buf : List ℤ) :
    maxAngleScan nodes ma isz (i :: is) buf
      = if ma < (((buf.set (i % isz)
            ⌊angle_between (get_vector (nodeAt nodes (i - 1)) (nodeAt nodes i))
              (get_vector (nodeAt nodes i) (nodeAt nodes (i + 1)))⌋).sum : ℤ) : ℝ)
        then some (nodeAt nodes (i - isz / 2))
        else maxAngleScan nodes ma isz is (buf.set (i % isz)
            ⌊angle_between (get_vector (nodeAt nodes (i - 1)) (nodeAt nodes i))
              (get_vector (nodeAt nodes i) (nodeAt nodes (i + 1)))⌋) := rfl

theorem maxAngleScan_spec (nodes : List P3) :
    ∀ (cnt k : ℕ) (buf : List ℤ), 1 ≤ k → BufInv3 nodes k buf →
      ((maxAngleScan nodes 80 3 (List.range' k cnt) buf = none
          ↔ ∀ i, k ≤ i → i < k + cnt → truncWindowSum nodes i ≤ 80)
        ∧ ∀ p, (maxAngleScan nodes 80 3 (List.range' k cnt) buf = some p
          ↔ ∃ i, k ≤ i ∧ i < k + cnt ∧ 80 < truncWindowSum nodes i
              ∧ (∀ j, k ≤ j → j < i → truncWindowSum nodes j ≤ 80)
              ∧ p = nodeAt nodes (i - 1))) := by
  intro cnt
  induction cnt with
  | zero =>
    intro k buf hk hinv
    constructor
    · constructor
      · intro _ i h1 h2
        omega
      · intro _
        rfl
    · intro p
      constructor
      · intro h
        exact Option.noConfusion h
      · rintro ⟨i, h1, h2, -⟩
        omega
  | succ cnt ih =>
    intro k buf hk hinv
    obtain ⟨hinv', hsum⟩ := bufInv3_step nodes k buf hk hinv
    have hZ : ⌊angle_between (get_vector (nodeAt nodes (k - 1)) (nodeAt nodes k))
        (get_vector (nodeAt nodes k) (nodeAt nodes (k + 1)))⌋ = truncAngleAt nodes k := by
      rw [truncAngleAt, if_pos hk]
    have hrange : List.range' k (cnt + 1) = k :: List.range' (k + 1) cnt := rfl
    rw [hrange, maxAngleScan_cons, hZ, hsum]
    by_cases htrig : (80:ℝ) < ((truncWindowSum nodes k : ℤ) : ℝ)
    · have htrigZ : (80:ℤ) < truncWindowSum nodes k := by exact_mod_cast htrig
      rw [if_pos htrig]
      constructor
      · constructor
        · intro h
          exact Option.noConfusion h
        · intro h
          exfalso
          have := h k le_rfl (by omega)
          omega
      · intro p
        constructor
        · intro h
          refine ⟨k, le_rfl, by omega, htrigZ, ?_, ?_⟩
          · intro j h1 h2
            omega
          · exact (Option.some.injEq _ _ ▸ h).symm
        · rintro ⟨i, h1, h2, h3, h4, rfl⟩
          have hik : i = k := by
            by_contra hne
            have := h4 k le_rfl (by omega)
            omega
          rw [hik]
    · have hok : truncWindowSum nodes k ≤ 80 := by
        have : ¬ ((80:ℤ) < truncWindowSum nodes k) := fun hc => htrig (by exact_mod_cast hc)
        omega
      rw [if_neg htrig]
      obtain ⟨ihnone, ihsome⟩ := ih (k + 1) _ (by omega) hinv'
      constructor
      · rw [ihnone]
        constructor
        · intro h i h1 h2
          rcases Nat.eq_or_lt_of_le h1 with rfl | h1'
          · exact hok
          · exact h i h1' (by omega)
        · intro h i h1 h2
          exact h i (by omega) (by omega)
      · intro p
        rw [ihsome p]
        constructor
        · rintro ⟨i, h1, h2, h3, h4, rfl⟩
          refine ⟨i, by omega, by omega, h3, ?_, rfl⟩
          intro j hj1 hj2
          rcases Nat.eq_or_lt_of_le hj1 with rfl | hj1'
          · exact hok
          · exact h4 j hj1' hj2
        · rintro ⟨i, h1, h2, h3, h4, rfl⟩
          have hik : k < i := by
            rcases Nat.eq_or_lt_of_le h1 with rfl | h1'
            · omega
            · exact h1'
          refine ⟨i, by omega, by omega, h3, ?_, rfl⟩
          intro j hj1 hj2
          exact h4 j (by omega) hj2

/-- Claim C5, amended.  `get_node_max_angle(80, interval_size=3)` — the
screen whose non-`None` result makes `Helix.fit` raise
`CurvedScrewAxisError` before the parameter search — returns a node iff
the sum of the last 3 *stored* turning angles exceeds 80 at some interior
index `i`, where each stored angle is the exact angle in degrees truncated
to an integer by its assignment into the int-dtype accumulator
`np.array([0] * interval_size)`; the returned node is the control point at
index `max(i - 1, 0)` for the first such `i`, and no node is returned when
no truncated window sum ever exceeds 80 (even when the exact window sum
does). -/
theorem c5_curvature_screen_amended (nodes : List P3) :
    (get_node_max_angle nodes 80 3 = none
        ↔ ∀ i, 1 ≤ i → i + 1 < nodes.length → truncWindowSum nodes i ≤ 80)
      ∧ ∀ p, (get_node_max_angle nodes 80 3 = some p
        ↔ ∃ i, 1 ≤ i ∧ i + 1 < nodes.length ∧ 80 < truncWindowSum nodes i
            ∧ (∀ j, 1 ≤ j → j < i → truncWindowSum nodes j ≤ 80)
            ∧ p = nodeAt nodes (i - 1)) := by
  obtain ⟨hnone, hsome⟩ := maxAngleScan_spec nodes (nodes.length - 2) 1 (List.replicate 3 0)
    le_rfl (bufInv3_start nodes)
  unfold get_node_max_angle
  constructor
  · rw [hnone]
    constructor
    · intro h i h1 h2
      exact h i h1 (by omega)
    · intro h i h1 h2
      exact h i h1 (by omega)
  · intro p
    rw [hsome p]
    constructor
    · rintro ⟨i, h1, h2, h3, h4, rfl⟩
      exact ⟨i, h1, by omega, h3, h4, rfl⟩
    · rintro ⟨i, h1, h2, h3, h4, rfl⟩
      exact ⟨i, h1, by omega, h3, h4, rfl⟩

theorem sqrt35_mul_self : Real.sqrt 35 * Real.sqrt 35 = 35 :=
  Real.mul_self_sqrt (by norm_num)

theorem c5ex_v2 : get_vector ((1:ℝ), (0:ℝ), (0:ℝ)) ((7/6:ℝ), Real.sqrt 35 / 6, (0:ℝ))
    = ((1/6:ℝ), Real.sqrt 35 / 6, (0:ℝ)) := by
  unfold get_vector
  norm_num

theorem c5ex_norm_v2 : norm3 ((1/6:ℝ), Real.sqrt 35 / 6, (0:ℝ)) = 1 := by
  unfold norm3 dot3
  rw [show (1/6:ℝ) * (1/6) + (Real.sqrt 35 / 6) * (Real.sqrt 35 / 6) + 0 * 0
      = 1/36 + (Real.sqrt 35 * Real.sqrt 35) / 36 from by ring]
  rw [sqrt35_mul_self]
  rw [show (1/36:ℝ) + 35/36 = 1 from by norm_num, Real.sqrt_one]

theorem c5ex_normalize_v1 : normalize3 ((1:ℝ), (0:ℝ), (0:ℝ)) = ((1:ℝ), (0:ℝ), (0:ℝ)) := by
  unfold normalize3
  rw [norm3_unitx, if_neg one_ne_zero]
  norm_num

theorem c5ex_normalize_v2 : normalize3 ((1/6:ℝ), Real.sqrt 35 / 6, (0:ℝ))
    = ((1/6:ℝ), Real.sqrt 35 / 6, (0:ℝ)) := by
  unfold normalize3
  rw [c5ex_norm_v2, if_neg one_ne_zero]
  norm_num

theorem c5ex_angle : angle_between
    (get_vector ((0:ℝ), (0:ℝ), (0:ℝ)) ((1:ℝ), (0:ℝ), (0:ℝ)))
    (get_vector ((1:ℝ), (0:ℝ), (0:ℝ)) ((7/6:ℝ), Real.sqrt 35 / 6, (0:ℝ)))
    = Real.arccos (1/6) * (180 / Real.pi) := by
  rw [get_vector_ex1, c5ex_v2]
  unfold angle_between
  rw [c5ex_normalize_v1, c5ex_normalize_v2]
  rw [show dot3 ((1:ℝ), (0:ℝ), (0:ℝ)) ((1/6:ℝ), Real.sqrt 35 / 6, (0:ℝ)) = 1/6 from by
    unfold dot3; ring]
  rw [show max (-1:ℝ) (1/6) = 1/6 from by norm_num,
    show min (1:ℝ) (1/6) = 1/6 from by norm_num]

theorem c5ex_arccos_gt : 4 * Real.pi / 9 < Real.arccos (1/6) := by
  have hpi1 : (3.141592:ℝ) < Real.pi := Real.pi_gt_d6
  have hpi2 : Real.pi < 3.15 := Real.pi_lt_d2
  have hpi0 : (0:ℝ) < Real.pi := Real.pi_pos
  have hcos : Real.cos (4 * Real.pi / 9) = Real.sin (Real.pi / 18) := by
    rw [show (4 * Real.pi / 9 : ℝ) = Real.pi / 2 - Real.pi / 18 from by ring,
      Real.cos_pi_div_two_sub]
  have hsq : Real.pi ^ 2 < 9.9225 := by nlinarith
  have hcube : Real.pi ^ 3 < 31.255875 := by nlinarith
  have hsin : (1/6:ℝ) < Real.sin (Real.pi / 18) := by
    have hb := Real.sin_gt_sub_cube (x := Real.pi / 18) (by positivity) (by nlinarith)
    nlinarith
  have hc : (1/6:ℝ) < Real.cos (4 * Real.pi / 9) := by rw [hcos]; exact hsin
  have := Real.strictAntiOn_arccos
    (Set.mem_Icc.mpr ⟨by norm_num, by norm_num⟩)
    (Set.mem_Icc.mpr ⟨Real.neg_one_le_cos _, Real.cos_le_one _⟩) hc
  rwa [Real.arccos_cos (by positivity) (by nlinarith)] at this

theorem c5ex_arccos_lt : Real.arccos (1/6) < 9 * Real.pi / 20 := by
  have hpi2 : Real.pi < 3.15 := Real.pi_lt_d2
  have hpi0 : (0:ℝ) < Real.pi := Real.pi_pos
  have hcos : Real.cos (9 * Real.pi / 20) = Real.sin (Real.pi / 20) := by
    rw [show (9 * Real.pi / 20 : ℝ) = Real.pi / 2 - Real.pi / 20 from by ring,
      Real.cos_pi_div_two_sub]
  have hsin : Real.sin (Real.pi / 20) < 1/6 := by
    have h1 : Real.sin (Real.pi / 20) < Real.pi / 20 := Real.sin_lt (by positivity)
    nlinarith
  have hc : Real.cos (9 * Real.pi / 20) < 1/6 := by rw [hcos]; exact hsin
  have := Real.strictAntiOn_arccos
    (Set.mem_Icc.mpr ⟨Real.neg_one_le_cos _, Real.cos_le_one _⟩)
    (Set.mem_Icc.mpr ⟨by norm_num, by norm_num⟩) hc
  rwa [Real.arccos_cos (by positivity) (by nlinarith)] at this

theorem c5ex_angle_gt : (80:ℝ) < Real.arccos (1/6) * (180 / Real.pi) := by
  have hpi0 : (0:ℝ) < Real.pi := Real.pi_pos
  have h80 : (80:ℝ) = (4 * Real.pi / 9) * (180 / Real.pi) := by
    field_simp
    ring
  rw [h80]
  exact mul_lt_mul_of_pos_right c5ex_arccos_gt (by positivity)

theorem c5ex_angle_lt : Real.arccos (1/6) * (180 / Real.pi) < 81 := by
  have hpi0 : (0:ℝ) < Real.pi := Real.pi_pos
  have h81 : (81:ℝ) = (9 * Real.pi / 20) * (180 / Real.pi) := by
    field_simp
    ring
  rw [h81]
  exact mul_lt_mul_of_pos_right c5ex_arccos_lt (by positivity)

theorem c5ex_floor : ⌊Real.arccos (1/6) * (180 / Real.pi)⌋ = (80:ℤ) := by
  rw [Int.floor_eq_iff]
  constructor
  · push_cast
    exact le_of_lt c5ex_angle_gt
  · push_cast
    exact lt_of_lt_of_le c5ex_angle_lt (by norm_num)

theorem c5ex_scan_none :
    get_node_max_angle
      [((0:ℝ), (0:ℝ), (0:ℝ)), ((1:ℝ), (0:ℝ), (0:ℝ)), ((7/6:ℝ), Real.sqrt 35 / 6, (0:ℝ))]
      80 3 = none := by
  unfold get_node_max_angle
  rw [show List.range' 1
      (([((0:ℝ), (0:ℝ), (0:ℝ)), ((1:ℝ), (0:ℝ), (0:ℝ)),
         ((7/6:ℝ), Real.sqrt 35 / 6, (0:ℝ))] : List P3).length - 2) = [1] from rfl]
  rw [maxAngleScan_cons]
  rw [show nodeAt [((0:ℝ), (0:ℝ), (0:ℝ)), ((1:ℝ), (0:ℝ), (0:ℝ)),
      ((7/6:ℝ), Real.sqrt 35 / 6, (0:ℝ))] (1 - 1) = ((0:ℝ), (0:ℝ), (0:ℝ)) from rfl]
  rw [show nodeAt [((0:ℝ), (0:ℝ), (0:ℝ)), ((1:ℝ), (0:ℝ), (0:ℝ)),
      ((7/6:ℝ), Real.sqrt 35 / 6, (0:ℝ))] 1 = ((1:ℝ), (0:ℝ), (0:ℝ)) from rfl]
  rw [show nodeAt [((0:ℝ), (0:ℝ), (0:ℝ)), ((1:ℝ), (0:ℝ), (0:ℝ)),
      ((7/6:ℝ), Real.sqrt 35 / 6, (0:ℝ))] (1 + 1)
      = ((7/6:ℝ), Real.sqrt 35 / 6, (0:ℝ)) from rfl]
  rw [c5ex_angle, c5ex_floor]
  rw [show (List.replicate 3 (0:ℤ)).set (1 % 3) 80 = [0, 80, 0] from rfl]
  rw [show ([0, 80, 0] : List ℤ).sum = 80 from by decide]
  rw [if_neg (by norm_num)]
  rfl

/-- Claim C5, counterexample.  On the three screw-axis control points
`(0,0,0)`, `(1,0,0)`, `(7/6, √35/6, 0)` the single interior turning angle
is `arccos(1/6)·180/π ≈ 80.4°`, so the exact last-3 window sum exceeds 80
and the claim demands that the curvature screen report a violation (making
`Helix.fit` raise `CurvedScrewAxisError`); but the int-dtype accumulator
stores the angle truncated to `80`, the stored window sum is `80 ≯ 80`,
and `get_node_max_angle(80, 3)` returns `None` (so `Helix.fit` proceeds to
the parameter search). -/
theorem c5_exact_angle_window_counterexample :
    (80:ℝ) < angle_between
        (get_vector ((0:ℝ), (0:ℝ), (0:ℝ)) ((1:ℝ), (0:ℝ), (0:ℝ)))
        (get_vector ((1:ℝ), (0:ℝ), (0:ℝ)) ((7/6:ℝ), Real.sqrt 35 / 6, (0:ℝ))) ∧
      get_node_max_angle
        [((0:ℝ), (0:ℝ), (0:ℝ)), ((1:ℝ), (0:ℝ), (0:ℝ)), ((7/6:ℝ), Real.sqrt 35 / 6, (0:ℝ))]
        80 3 = none := by
  constructor
  · rw [c5ex_angle]
    exact c5ex_angle_gt
  · exact c5ex_scan_none

/-- Witness for the amended claim C5: instantiating the characterisation
on the concrete three-point axis shows its stored window sums all stay
`≤ 80`. -/
theorem c5_curvature_screen_amended_witness :
    truncWindowSum
      [((0:ℝ), (0:ℝ), (0:ℝ)), ((1:ℝ), (0:ℝ), (0:ℝ)), ((7/6:ℝ), Real.sqrt 35 / 6, (0:ℝ))]
      1 ≤ 80 :=
  (c5_curvature_screen_amended
    [((0:ℝ), (0:ℝ), (0:ℝ)), ((1:ℝ), (0:ℝ), (0:ℝ)),
     ((7/6:ℝ), Real.sqrt 35 / 6, (0:ℝ))]).1.mp c5ex_scan_none 1 le_rfl (by norm_num)
